import Mathlib

set_option maxRecDepth 8000

/-!
Verification of the task-reminder plugin's markdown synchronization core.

The development shallowly embeds the line-oriented mutation and codec
functions of `src/main.ts` and `src/TaskModal.ts` (which also contains the
`EditTaskModal` implementation).  Strings are modelled as `List Char`,
documents as their `'\n'`-split line arrays (`List (List Char)`), and each
source function that conditionally writes a file returns an `Option`
whose `none` means "no write performed".
-/

/-- ASCII whitespace as matched by the JavaScript `\s` class and `trim`
(restricted to the ASCII range, which is all this format produces). -/
def isWs (c : Char) : Bool :=
  c == ' ' || c == '\t' || c == '\n' || c == '\r' ||
  c == Char.ofNat 11 || c == Char.ofNat 12

/-- JavaScript `String.prototype.trim`: drop whitespace from both ends. -/
def trimChars (l : List Char) : List Char :=
  ((l.dropWhile isWs).reverse.dropWhile isWs).reverse

/-- The right-trim half of `trim`: drop trailing whitespace. -/
def rtrimWs (l : List Char) : List Char :=
  (l.reverse.dropWhile isWs).reverse

/-- The hard-coded section heading `'## Tasks'` used by every mutator. -/
def tasksHeading : List Char := "## Tasks".data

/-- JavaScript `line.startsWith('#')`, used to detect section boundaries. -/
def startsHash (l : List Char) : Bool :=
  match l with
  | [] => false
  | c :: _ => c == '#'

/-- The task record (`TaskData` in both source files). -/
structure TaskData where
  name : List Char
  tags : List (List Char)
  date : List Char
  checklist : Bool
  project : Option (List Char)
  fileId : Option (List Char)
deriving DecidableEq, Repr

/-- Test of the regex `^- \[.\] ${escapedTaskName}(?:[^\n]*)` built by
`updateTaskInProjectFile`, `updateInProjectFile`, `removeFromProjectFile`
and `removeFromSourceFile`: the line must start with `- [`, one
non-newline character, `] `, then the literal task name (the source
escapes every regex metacharacter first, so the name is matched
literally); anything may follow. -/
def matchesTask (name line : List Char) : Bool :=
  match line with
  | '-' :: ' ' :: '[' :: c :: ']' :: ' ' :: rest =>
    !(c == '\n') && name.isPrefixOf rest
  | _ => false

/-- The bracket character `task.checklist ? 'x' : ' '`. -/
def checkboxChar (b : Bool) : Char := if b then 'x' else ' '

/-- JavaScript `Array.prototype.join(sep)`. -/
def joinSep (sep : List Char) : List (List Char) → List Char
  | [] => []
  | x :: xs =>
    match xs with
    | [] => x
    | _ :: _ => x ++ sep ++ joinSep sep xs

/-- The tag segment of an encoded line:
`task.tags.length ? ' ' + task.tags.map(tag => '#' + tag).join(' ') : ''`. -/
def tagsPart (tags : List (List Char)) : List Char :=
  match tags with
  | [] => []
  | _ :: _ => ' ' :: joinSep [' '] (tags.map (fun tg => '#' :: tg))

/-- The date segment of an encoded line:
`task.date ? ' (' + task.date + ')' : ''`. -/
def datePart (date : List Char) : List Char :=
  match date with
  | [] => []
  | _ :: _ => ' ' :: '(' :: (date ++ [')'])

/-- The encoded checklist line without the trailing newline, exactly as
built inline by `updateTaskInProjectFile` / `updateTaskInFile` in
`main.ts`. -/
def taskLineBody (t : TaskData) : List Char :=
  '-' :: ' ' :: '[' :: checkboxChar t.checklist :: ']' :: ' ' ::
    (t.name ++ tagsPart t.tags ++ datePart t.date)

/-- `formatTaskLine` from `TaskModal.ts` / `EditTaskModal`: the same
template literal, which additionally ends with `'\n'`. -/
def formatTaskLine (t : TaskData) : List Char := taskLineBody t ++ ['\n']

/-- `lines.findIndex(line => line.trim() === '## Tasks')`, with `none`
for the JavaScript result `-1`. -/
def findHeadingIdx : List (List Char) → Option Nat
  | [] => none
  | l :: ls =>
    if trimChars l == tasksHeading then some 0
    else (findHeadingIdx ls).map (fun i => i + 1)

/-- `appendToProjectFile` (Insert): locate the `## Tasks` heading and
splice the encoded line (`formatTaskLine`, trailing newline included) in
at index `tasksIndex + 1`; `none` when the heading is absent (no write). -/
def appendToProjectFile (t : TaskData) (doc : List (List Char)) :
    Option (List (List Char)) :=
  match findHeadingIdx doc with
  | none => none
  | some i => some (doc.take (i + 1) ++ formatTaskLine t :: doc.drop (i + 1))

/-- The loop of `updateTaskInProjectFile` (and the identical
`updateTaskInFile`) in `main.ts`: scan ALL lines from the top, replace the
first one matching the task's own name with the freshly encoded line
(no trailing newline), stop; `none` when nothing matched (no write).
There is no section restriction in this function. -/
def updateTaskInProjectFile (t : TaskData) : List (List Char) → Option (List (List Char))
  | [] => none
  | l :: ls =>
    if matchesTask t.name l then some (taskLineBody t :: ls)
    else (updateTaskInProjectFile t ls).map (fun r => l :: r)

/-- The scan of `EditTaskModal.updateInProjectFile` over the lines after
the heading: stop at the next `#`-line, replace the first line matching
the ORIGINAL task name by `this.formatTaskLine(task).trim()`. -/
def updateSection (origName : List Char) (t : TaskData) :
    List (List Char) → Option (List (List Char))
  | [] => none
  | l :: ls =>
    if startsHash l then none
    else if matchesTask origName l then
      some (trimChars (formatTaskLine t) :: ls)
    else (updateSection origName t ls).map (fun r => l :: r)

/-- `EditTaskModal.updateInProjectFile` (UpdateInPlace): find the heading,
then update within the section; `none` when the heading is absent or no
line matched (no write). -/
def updateInProjectFile (origName : List Char) (t : TaskData)
    (doc : List (List Char)) : Option (List (List Char)) :=
  match findHeadingIdx doc with
  | none => none
  | some i =>
    (updateSection origName t (doc.drop (i + 1))).map
      (fun r => doc.take (i + 1) ++ r)

/-- The per-line predicate of `removeFromProjectFile`'s filter:
keep every line at index `≤ tasksIndex`, every line starting with `#`,
and every line not matching the task pattern. -/
def keepLine (name : List Char) (ti idx : Nat) (l : List Char) : Bool :=
  decide (idx ≤ ti) || startsHash l || !(matchesTask name l)

/-- `lines.filter((line, index) => ...)` from `removeFromProjectFile`. -/
def keepFilter (name : List Char) (ti : Nat) : Nat → List (List Char) → List (List Char)
  | _, [] => []
  | i, l :: ls =>
    if keepLine name ti i l then l :: keepFilter name ti (i + 1) ls
    else keepFilter name ti (i + 1) ls

/-- `EditTaskModal.removeFromProjectFile` (Remove): find the heading,
filter the lines, and write back only if the length changed. -/
def removeFromProjectFile (name : List Char) (doc : List (List Char)) :
    Option (List (List Char)) :=
  match findHeadingIdx doc with
  | none => none
  | some ti =>
    if (keepFilter name ti 0 doc).length == doc.length then none
    else some (keepFilter name ti 0 doc)

/-- JavaScript `content.split('\n')`. -/
def splitNl : List Char → List (List Char)
  | [] => [[]]
  | c :: rest =>
    if c == '\n' then [] :: splitNl rest
    else
      match splitNl rest with
      | [] => [[c]]
      | l :: ls => (c :: l) :: ls

/-- JavaScript `lines.join('\n')`. -/
def joinNl : List (List Char) → List Char
  | [] => []
  | l :: ls =>
    match ls with
    | [] => l
    | _ :: _ => l ++ '\n' :: joinNl ls

/-- `appendToProjectFile` at the level of a document's full text:
read, split, mutate, join, write (or leave the text alone on `none`). -/
def appendToProjectFileText (t : TaskData) (content : List Char) : List Char :=
  match appendToProjectFile t (splitNl content) with
  | some ls => joinNl ls
  | none => content

/-- `updateTaskInProjectFile` at the level of a document's full text. -/
def updateTaskInProjectFileText (t : TaskData) (content : List Char) : List Char :=
  match updateTaskInProjectFile t (splitNl content) with
  | some ls => joinNl ls
  | none => content

/-- `updateInProjectFile` at the level of a document's full text. -/
def updateInProjectFileText (origName : List Char) (t : TaskData)
    (content : List Char) : List Char :=
  match updateInProjectFile origName t (splitNl content) with
  | some ls => joinNl ls
  | none => content

/-- `removeFromProjectFile` at the level of a document's full text. -/
def removeFromProjectFileText (name : List Char) (content : List Char) : List Char :=
  match removeFromProjectFile name (splitNl content) with
  | some ls => joinNl ls
  | none => content

/-- Whether a string starts with a non-whitespace character (the
lookahead deciding that `#` opens a `#[^\s]+` match). -/
def headNonWs (l : List Char) : Bool :=
  match l with
  | [] => false
  | d :: _ => !isWs d

/-- Scanner for the global regex `#[^\s]+` used by `parseProjectTasks`:
left-to-right, a match starts at a `#` immediately followed by a
non-whitespace character and greedily takes the maximal non-whitespace
run (the `#` included).  The state carries the reversed characters of the
token currently being consumed.  Returns (matches, string with the
matches deleted), i.e. both `name.match(/#[^\s]+/g)` and
`name.replace(/#[^\s]+/g, '')`. -/
def extractGo : List Char → Option (List Char) → List (List Char) × List Char
  | [], none => ([], [])
  | [], some acc => ([acc.reverse], [])
  | c :: rest, none =>
    if c == '#' && headNonWs rest then
      extractGo rest (some [c])
    else
      ((extractGo rest none).1, c :: (extractGo rest none).2)
  | c :: rest, some acc =>
    if isWs c then
      (acc.reverse :: (extractGo rest none).1, c :: (extractGo rest none).2)
    else
      extractGo rest (some (c :: acc))

/-- All `#token` matches in a string together with the residual string. -/
def extract (l : List Char) : List (List Char) × List Char := extractGo l none

/-- The ten-character body of the date regex `\d{4}-\d{2}-\d{2}`. -/
def dateShape (d : List Char) : Bool :=
  d.length == 10 &&
  d.enum.all (fun p => if p.1 == 4 || p.1 == 7 then p.2 == '-' else p.2.isDigit)

/-- Whether the regex `\((\d{4}-\d{2}-\d{2})\)` matches at the head of
the string. -/
def parenDateAt : List Char → Bool
  | [] => false
  | c :: rest =>
    c == '(' && dateShape (rest.take 10) && ((rest.drop 10).head? == some ')')

/-- First match of `\((\d{4}-\d{2}-\d{2})\)` in a string: returns the
captured ten-character date and the string with that first parenthesized
match deleted, mirroring `name.match(...)` plus `name.replace(...)`. -/
def findDate : List Char → Option (List Char × List Char)
  | [] => none
  | c :: r =>
    if parenDateAt (c :: r) then some (r.take 10, r.drop 11)
    else (findDate r).map (fun p => (p.1, c :: p.2))

/-- The per-line decoder inside `parseProjectTasks`: match
`^- \[([ x])\] (.+)$` — the ECMAScript `.` matches no line terminator
(`\n` or `\r` in the ASCII range) and `$` without the `m` flag anchors at
the end of the input, so the remainder must be nonempty and free of both
`\n` and `\r` — then extract tags (trimming the name only when at least
one tag was found), then extract an optional date (trimming again only
when a date was found). -/
def decodeLine (line : List Char) : Option TaskData :=
  match line with
  | '-' :: ' ' :: '[' :: c :: ']' :: ' ' :: rest =>
    if (c == ' ' || c == 'x') && !rest.isEmpty &&
        !(rest.contains '\n') && !(rest.contains '\r') then
      let em := extract rest
      let tags := em.1.map (fun m => m.drop 1)
      let name1 := match em.1 with
        | [] => rest
        | _ :: _ => trimChars em.2
      match findDate name1 with
      | some p => some ⟨trimChars p.2, tags, p.1, c == 'x', none, none⟩
      | none => some ⟨name1, tags, [], c == 'x', none, none⟩
    else none
  | _ => none

/-- The line loop of `parseProjectTasks`: a trimmed `## Tasks` line opens
the section (and is skipped even when one is already open); inside the
section a `#`-line breaks the loop and every other line is fed to the
per-line decoder. -/
def parseLines : List (List Char) → Bool → List TaskData
  | [], _ => []
  | l :: ls, inSec =>
    if trimChars l == tasksHeading then parseLines ls true
    else if inSec then
      if startsHash l then []
      else
        match decodeLine l with
        | some t => t :: parseLines ls inSec
        | none => parseLines ls inSec
    else parseLines ls false

/-- `parseProjectTasks` from `main.ts`. -/
def parseProjectTasks (content : List Char) : List TaskData :=
  parseLines (splitNl content) false

/-- The identity predicate used by the store:
`t.name === task.name && t.date === task.date`. -/
def sameKey (a b : TaskData) : Bool := a.name == b.name && a.date == b.date

/-- The in-memory part of `handleTaskDeletion`:
`this.tasks.filter(t => !(t.name === task.name && t.date === task.date))`. -/
def handleTaskDeletion (task : TaskData) (tasks : List TaskData) : List TaskData :=
  tasks.filter (fun t => !(sameKey t task))

/-- JavaScript `Array.prototype.findIndex`, with `none` for `-1`. -/
def findIndexAux (p : TaskData → Bool) : List TaskData → Option Nat
  | [] => none
  | t :: ts => if p t then some 0 else (findIndexAux p ts).map (fun i => i + 1)

/-- The in-memory part of the edit click handler in `main.ts`: locate the
task by `(name, date)` of the pre-edit record and overwrite that slot. -/
def editReplaceList (orig upd : TaskData) (tasks : List TaskData) : List TaskData :=
  match findIndexAux (fun t => sameKey t orig) tasks with
  | some i => tasks.set i upd
  | none => tasks

/-- The modal's form state (fields of `TaskModal` / `EditTaskModal`). -/
structure ModalState where
  taskName : List Char
  taskTags : List (List Char)
  taskDate : List Char
  taskChecklist : Bool
  taskProject : List Char
  fileId : List Char
deriving DecidableEq, Repr

/-- The `TaskData` object built by `submitTask`
(`project: this.taskProject || undefined`). -/
def modalTask (s : ModalState) : TaskData :=
  ⟨s.taskName, s.taskTags, s.taskDate, s.taskChecklist,
   (match s.taskProject with | [] => none | _ :: _ => some s.taskProject),
   some s.fileId⟩

/-- Observable effect of a create-modal submit: whether the inline error
was shown, the in-memory list, the project document text and the origin
document text afterwards. -/
structure CreateEffect where
  errorShown : Bool
  tasks : List TaskData
  projectText : List Char
  originText : List Char
deriving DecidableEq, Repr

/-- `TaskModal.submitTask` composed with the view's `addTask` callback:
an empty name shows the transient error and aborts; otherwise the line is
appended to the project file, the task is pushed, the origin file is
updated (`updateTaskInFile`, same algorithm as `updateTaskInProjectFile`),
and the project file is updated once more by `addTask`. -/
def submitTaskCreate (s : ModalState) (tasks : List TaskData)
    (projectText originText : List Char) : CreateEffect :=
  match s.taskName with
  | [] => ⟨true, tasks, projectText, originText⟩
  | _ :: _ =>
    let task := modalTask s
    let pt1 := match task.project with
      | some _ => appendToProjectFileText task projectText
      | none => projectText
    let ot := match s.fileId with
      | [] => originText
      | _ :: _ => updateTaskInProjectFileText task originText
    let pt2 := match task.project with
      | some _ => updateTaskInProjectFileText task pt1
      | none => pt1
    ⟨false, tasks ++ [task], pt2, ot⟩

/-- Observable effect of an edit-modal submit. -/
structure EditEffect where
  errorShown : Bool
  tasks : List TaskData
  oldProjectText : List Char
  newProjectText : List Char
deriving DecidableEq, Repr

/-- `EditTaskModal.submitTask` composed with the edit click handler's
callback in `main.ts`: an empty name shows the transient error and
aborts.  Otherwise, when the project is unchanged, `updateInProjectFile`
runs keyed by the ORIGINAL name, then the callback replaces the record
in-memory and re-runs `updateTaskInProjectFile` with the stale pre-edit
`task` object; when the project changed, the line is removed from the old
project, appended to the new one, and the same stale re-update runs
against the old project's file. -/
def submitTaskEdit (orig : TaskData) (s : ModalState) (tasks : List TaskData)
    (oldText newText : List Char) : EditEffect :=
  match s.taskName with
  | [] => ⟨true, tasks, oldText, newText⟩
  | _ :: _ =>
    let upd := modalTask s
    if upd.project == orig.project then
      let t1 := match upd.project with
        | some _ => updateInProjectFileText orig.name upd oldText
        | none => oldText
      let t2 := match orig.project with
        | some _ => updateTaskInProjectFileText orig t1
        | none => t1
      ⟨false, editReplaceList orig upd tasks, t2, newText⟩
    else
      let t1 := match orig.project with
        | some _ => removeFromProjectFileText orig.name oldText
        | none => oldText
      let n1 := match upd.project with
        | some _ => appendToProjectFileText upd newText
        | none => newText
      let t2 := match orig.project with
        | some _ => updateTaskInProjectFileText orig t1
        | none => t1
      ⟨false, editReplaceList orig upd tasks, t2, n1⟩

/-- Result text of `updateInProjectFile` on a line array (the document is
left unchanged when no write happens). -/
def applyUpdateInProjectFile (origName : List Char) (t : TaskData)
    (doc : List (List Char)) : List (List Char) :=
  (updateInProjectFile origName t doc).getD doc

/-- Result line array of `updateTaskInProjectFile` (the document is left
unchanged when no write happens). -/
def applyUpdateTaskInProjectFile (t : TaskData) (doc : List (List Char)) :
    List (List Char) :=
  (updateTaskInProjectFile t doc).getD doc

/-! ## Supporting lemmas -/

theorem findIndexAux_some {p : TaskData → Bool} :
    ∀ {tasks : List TaskData} {i}, findIndexAux p tasks = some i →
      ∃ t, tasks[i]? = some t ∧ p t = true := by
  intro tasks
  induction tasks with
  | nil => intro i h; simp [findIndexAux] at h
  | cons t ts ih =>
    intro i h
    by_cases hp : p t = true
    · simp [findIndexAux, hp] at h
      exact ⟨t, by simp [← h], hp⟩
    · simp [findIndexAux, hp] at h
      obtain ⟨j, hj, rfl⟩ := h
      obtain ⟨u, hu, hpu⟩ := ih hj
      exact ⟨u, by simpa using hu, hpu⟩

theorem findIndexAux_none {p : TaskData → Bool} :
    ∀ {tasks : List TaskData}, (∀ t ∈ tasks, p t = false) →
      findIndexAux p tasks = none := by
  intro tasks
  induction tasks with
  | nil => intro _; rfl
  | cons t ts ih =>
    intro h
    have ht := h t (by simp)
    simp [findIndexAux, ht, ih (fun u hu => h u (by simp [hu]))]

theorem findHeadingIdx_lt :
    ∀ {doc : List (List Char)} {i}, findHeadingIdx doc = some i → i < doc.length := by
  intro doc
  induction doc with
  | nil => intro i h; simp [findHeadingIdx] at h
  | cons l ls ih =>
    intro i h
    by_cases hl : trimChars l == tasksHeading
    · simp [findHeadingIdx, hl] at h
      simp only [List.length_cons]
      omega
    · simp [findHeadingIdx, hl] at h
      obtain ⟨j, hj, rfl⟩ := h
      have := ih hj
      simp only [List.length_cons]
      omega

theorem findHeadingIdx_take_append :
    ∀ {doc : List (List Char)} {i}, findHeadingIdx doc = some i →
      ∀ B, findHeadingIdx (doc.take (i + 1) ++ B) = some i := by
  intro doc
  induction doc with
  | nil => intro i h; simp [findHeadingIdx] at h
  | cons l ls ih =>
    intro i h B
    by_cases hl : trimChars l == tasksHeading
    · simp [findHeadingIdx, hl] at h
      subst h
      simp [findHeadingIdx, hl]
    · simp [findHeadingIdx, hl] at h
      obtain ⟨j, hj, rfl⟩ := h
      simp only [List.take_succ_cons, List.cons_append, findHeadingIdx, hl,
        if_neg (by simpa using hl)]
      simp [ih hj B]

theorem keepFilter_of_no_match {name : List Char} :
    ∀ {doc : List (List Char)}, (∀ l ∈ doc, matchesTask name l = false) →
      ∀ ti i, keepFilter name ti i doc = doc := by
  intro doc
  induction doc with
  | nil => intro _ _ _; rfl
  | cons l ls ih =>
    intro h ti i
    have hl := h l (by simp)
    simp [keepFilter, keepLine, hl, ih (fun u hu => h u (by simp [hu]))]

theorem updateSection_none {origName : List Char} {t : TaskData} :
    ∀ {doc : List (List Char)}, (∀ l ∈ doc, matchesTask origName l = false) →
      updateSection origName t doc = none := by
  intro doc
  induction doc with
  | nil => intro _; rfl
  | cons l ls ih =>
    intro h
    have hl := h l (by simp)
    by_cases hh : startsHash l
    · simp [updateSection, hh]
    · simp [updateSection, hh, hl, ih (fun u hu => h u (by simp [hu]))]

theorem updateTaskInProjectFile_no_match {t : TaskData} :
    ∀ {doc : List (List Char)}, (∀ l ∈ doc, matchesTask t.name l = false) →
      updateTaskInProjectFile t doc = none := by
  intro doc
  induction doc with
  | nil => intro _; rfl
  | cons l ls ih =>
    intro h
    have hl := h l (by simp)
    simp [updateTaskInProjectFile, hl, ih (fun u hu => h u (by simp [hu]))]

theorem matchesTask_self_body (t : TaskData) :
    matchesTask t.name (taskLineBody t) = true := by
  show matchesTask t.name
      ('-' :: ' ' :: '[' :: checkboxChar t.checklist :: ']' :: ' ' ::
        (t.name ++ tagsPart t.tags ++ datePart t.date)) = true
  have hc : (checkboxChar t.checklist == '\n') = false := by
    cases t.checklist <;> decide
  simp only [matchesTask, hc, Bool.not_false, Bool.true_and]
  rw [List.isPrefixOf_iff_prefix, List.append_assoc]
  exact List.prefix_append _ _

theorem updateTaskInProjectFile_again {t : TaskData} :
    ∀ {doc res : List (List Char)}, updateTaskInProjectFile t doc = some res →
      updateTaskInProjectFile t res = some res := by
  intro doc
  induction doc with
  | nil => intro res h; simp [updateTaskInProjectFile] at h
  | cons l ls ih =>
    intro res h
    by_cases hl : matchesTask t.name l = true
    · simp [updateTaskInProjectFile, hl] at h
      subst h
      simp [updateTaskInProjectFile, matchesTask_self_body]
    · simp [updateTaskInProjectFile, hl] at h
      obtain ⟨r, hr, rfl⟩ := h
      simp [updateTaskInProjectFile, hl, ih hr]

theorem updateInProjectFile_not_found {origName : List Char} {t : TaskData}
    {doc : List (List Char)} (hf : findHeadingIdx doc = none) :
    updateInProjectFile origName t doc = none := by
  unfold updateInProjectFile; rw [hf]

theorem updateInProjectFile_found {origName : List Char} {t : TaskData}
    {doc : List (List Char)} {i : Nat} (hf : findHeadingIdx doc = some i) :
    updateInProjectFile origName t doc =
      (updateSection origName t (doc.drop (i + 1))).map
        (fun r => doc.take (i + 1) ++ r) := by
  unfold updateInProjectFile; rw [hf]

theorem removeFromProjectFile_found {name : List Char}
    {doc : List (List Char)} {ti : Nat} (hf : findHeadingIdx doc = some ti) :
    removeFromProjectFile name doc =
      (if (keepFilter name ti 0 doc).length == doc.length then none
       else some (keepFilter name ti 0 doc)) := by
  unfold removeFromProjectFile; rw [hf]

theorem dropWhile_append_singleton {p : Char → Bool} {c : Char} (hc : p c = false) :
    ∀ (y : List Char), List.dropWhile p (y ++ [c]) = List.dropWhile p y ++ [c] := by
  intro y
  induction y with
  | nil => simp [List.dropWhile, hc]
  | cons a y' ih =>
    by_cases ha : p a = true
    · simp [List.dropWhile_cons, ha, ih]
    · simp [List.dropWhile_cons, ha]

theorem trimChars_cons_of_not_ws {c : Char} (hc : isWs c = false) (l : List Char) :
    trimChars (c :: l) = c :: (l.reverse.dropWhile isWs).reverse := by
  unfold trimChars
  rw [List.dropWhile_cons, if_neg (by simp [hc])]
  rw [List.reverse_cons, dropWhile_append_singleton hc, List.reverse_append]
  simp

theorem trimChars_formatTaskLine_head (t : TaskData) :
    ∃ m, trimChars (formatTaskLine t) = '-' :: m := by
  have h : formatTaskLine t =
      '-' :: (' ' :: '[' :: checkboxChar t.checklist :: ']' :: ' ' ::
        (t.name ++ tagsPart t.tags ++ datePart t.date) ++ ['\n']) := rfl
  rw [h, trimChars_cons_of_not_ws (by decide)]
  exact ⟨_, rfl⟩

theorem updateSection_again {origName : List Char} {t : TaskData}
    (hm : matchesTask origName (trimChars (formatTaskLine t)) = true) :
    ∀ {doc res : List (List Char)}, updateSection origName t doc = some res →
      updateSection origName t res = some res := by
  intro doc
  induction doc with
  | nil => intro res h; simp [updateSection] at h
  | cons l ls ih =>
    intro res h
    by_cases hh : startsHash l = true
    · simp [updateSection, hh] at h
    · by_cases hl : matchesTask origName l = true
      · simp [updateSection, hh, hl] at h
        subst h
        obtain ⟨m, hm2⟩ := trimChars_formatTaskLine_head t
        have hsh : startsHash (trimChars (formatTaskLine t)) = false := by
          rw [hm2]; simp [startsHash]
        simp [updateSection, hsh, hm]
      · simp [updateSection, hh, hl] at h
        obtain ⟨r, hr, rfl⟩ := h
        simp [updateSection, hh, hl, ih hr]

theorem splitNl_no_newline : ∀ (content : List Char), ∀ l ∈ splitNl content, '\n' ∉ l := by
  intro content
  induction content with
  | nil =>
    intro l hl
    simp [splitNl] at hl
    simp [hl]
  | cons c rest ih =>
    intro l hl
    by_cases hc : c = '\n'
    · subst hc
      simp [splitNl] at hl
      rcases hl with hl | hl
      · simp [hl]
      · exact ih l hl
    · rw [splitNl, if_neg (by simpa using hc)] at hl
      cases hsp : splitNl rest with
      | nil =>
        rw [hsp] at hl
        simp at hl
        simp only [hl, List.mem_singleton]
        exact fun hh => hc hh.symm
      | cons hd tl =>
        rw [hsp] at hl
        simp at hl
        rcases hl with hl | hl
        · subst hl
          intro hmem
          simp at hmem
          rcases hmem with hmem | hmem
          · exact hc hmem.symm
          · exact ih hd (by simp [hsp]) hmem
        · exact ih l (by simp [hsp, hl])

theorem splitNl_of_no_newline : ∀ {l : List Char}, '\n' ∉ l → splitNl l = [l] := by
  intro l
  induction l with
  | nil => intro _; rfl
  | cons c rest ih =>
    intro h
    simp at h
    rw [splitNl, if_neg (by simp [Ne.symm h.1]), ih h.2]

theorem splitNl_append_newline :
    ∀ {l : List Char}, '\n' ∉ l →
      ∀ r, splitNl (l ++ '\n' :: r) = l :: splitNl r := by
  intro l
  induction l with
  | nil => intro _ r; simp [splitNl]
  | cons c rest ih =>
    intro h r
    simp at h
    rw [List.cons_append, splitNl, if_neg (by simp [Ne.symm h.1]), ih h.2 r]

theorem joinNl_cons_of_ne_nil {ls : List (List Char)} (h : ls ≠ []) (l : List Char) :
    joinNl (l :: ls) = l ++ '\n' :: joinNl ls := by
  cases ls with
  | nil => exact absurd rfl h
  | cons a as => rfl

theorem splitNl_joinNl :
    ∀ {L : List (List Char)}, (∀ x ∈ L, '\n' ∉ x) → L ≠ [] →
      splitNl (joinNl L) = L := by
  intro L
  induction L with
  | nil => intro _ h; exact absurd rfl h
  | cons x xs ih =>
    intro h _
    cases xs with
    | nil => exact splitNl_of_no_newline (h x (by simp))
    | cons y ys =>
      rw [joinNl_cons_of_ne_nil (by simp) x,
        splitNl_append_newline (h x (by simp)),
        ih (fun u hu => h u (by simp [hu])) (by simp)]

theorem joinNl_mid_newline :
    ∀ (A : List (List Char)) (x : List Char) (B : List (List Char)),
      joinNl (A ++ (x ++ ['\n']) :: B) = joinNl (A ++ x :: [] :: B) := by
  intro A
  induction A with
  | nil =>
    intro x B
    cases B with
    | nil => simp [joinNl]
    | cons b bs =>
      rw [List.nil_append, List.nil_append,
        joinNl_cons_of_ne_nil (by simp) (x ++ ['\n']),
        joinNl_cons_of_ne_nil (by simp) x,
        joinNl_cons_of_ne_nil (by simp) ([] : List Char)]
      simp
  | cons a A' ih =>
    intro x B
    rw [List.cons_append, List.cons_append,
      joinNl_cons_of_ne_nil (by simp) a,
      joinNl_cons_of_ne_nil (by simp) a, ih x B]

theorem no_newline_joinSep {sep : List Char} (hsep : '\n' ∉ sep) :
    ∀ {xs : List (List Char)}, (∀ x ∈ xs, '\n' ∉ x) → '\n' ∉ joinSep sep xs := by
  intro xs
  induction xs with
  | nil => intro _; simp [joinSep]
  | cons x xs' ih =>
    intro h
    cases xs' with
    | nil => exact h x (by simp)
    | cons y ys =>
      show '\n' ∉ x ++ sep ++ joinSep sep (y :: ys)
      simp only [List.mem_append, not_or]
      exact ⟨⟨h x (by simp), hsep⟩, ih (fun u hu => h u (by simp [hu]))⟩

theorem no_newline_tagsPart {tags : List (List Char)}
    (ht : ∀ tg ∈ tags, '\n' ∉ tg) : '\n' ∉ tagsPart tags := by
  cases tags with
  | nil => simp [tagsPart]
  | cons a as =>
    intro hmem
    rcases List.mem_cons.mp hmem with h | hmem2
    · exact absurd h (by decide)
    · refine no_newline_joinSep (by decide) ?_ hmem2
      intro x hx
      simp only [List.mem_map] at hx
      obtain ⟨tg, htg, rfl⟩ := hx
      intro hm
      rcases List.mem_cons.mp hm with h | h
      · exact absurd h (by decide)
      · exact ht tg htg h

theorem no_newline_datePart {date : List Char} (hd : '\n' ∉ date) :
    '\n' ∉ datePart date := by
  cases date with
  | nil => simp [datePart]
  | cons a as =>
    intro hmem
    rcases List.mem_cons.mp hmem with h | hmem
    · exact absurd h (by decide)
    rcases List.mem_cons.mp hmem with h | hmem
    · exact absurd h (by decide)
    rcases List.mem_append.mp hmem with hmem | hmem
    · exact hd hmem
    · exact absurd (List.mem_singleton.mp hmem) (by decide)

theorem not_mem_joinSep {ch : Char} {sep : List Char} (hsep : ch ∉ sep) :
    ∀ {xs : List (List Char)}, (∀ x ∈ xs, ch ∉ x) → ch ∉ joinSep sep xs := by
  intro xs
  induction xs with
  | nil => intro _; simp [joinSep]
  | cons x xs' ih =>
    intro h
    cases xs' with
    | nil => exact h x (by simp)
    | cons y ys =>
      show ch ∉ x ++ sep ++ joinSep sep (y :: ys)
      simp only [List.mem_append, not_or]
      exact ⟨⟨h x (by simp), hsep⟩, ih (fun u hu => h u (by simp [hu]))⟩

theorem no_cr_tagsPart {tags : List (List Char)}
    (ht : ∀ tg ∈ tags, '\r' ∉ tg) : '\r' ∉ tagsPart tags := by
  cases tags with
  | nil => simp [tagsPart]
  | cons a as =>
    intro hmem
    rcases List.mem_cons.mp hmem with h | hmem2
    · exact absurd h (by decide)
    · refine not_mem_joinSep (by decide) ?_ hmem2
      intro x hx
      simp only [List.mem_map] at hx
      obtain ⟨tg, htg, rfl⟩ := hx
      intro hm
      rcases List.mem_cons.mp hm with h | h
      · exact absurd h (by decide)
      · exact ht tg htg h

theorem no_cr_datePart {date : List Char} (hd : '\r' ∉ date) :
    '\r' ∉ datePart date := by
  cases date with
  | nil => simp [datePart]
  | cons a as =>
    intro hmem
    rcases List.mem_cons.mp hmem with h | hmem
    · exact absurd h (by decide)
    rcases List.mem_cons.mp hmem with h | hmem
    · exact absurd h (by decide)
    rcases List.mem_append.mp hmem with hmem | hmem
    · exact hd hmem
    · exact absurd (List.mem_singleton.mp hmem) (by decide)

theorem no_newline_taskLineBody {t : TaskData} (hn : '\n' ∉ t.name)
    (ht : ∀ tg ∈ t.tags, '\n' ∉ tg) (hd : '\n' ∉ t.date) :
    '\n' ∉ taskLineBody t := by
  intro hmem
  unfold taskLineBody at hmem
  rcases List.mem_cons.mp hmem with h | hmem
  · exact absurd h (by decide)
  rcases List.mem_cons.mp hmem with h | hmem
  · exact absurd h (by decide)
  rcases List.mem_cons.mp hmem with h | hmem
  · exact absurd h (by decide)
  rcases List.mem_cons.mp hmem with h | hmem
  · revert h; cases t.checklist <;> decide
  rcases List.mem_cons.mp hmem with h | hmem
  · exact absurd h (by decide)
  rcases List.mem_cons.mp hmem with h | hmem
  · exact absurd h (by decide)
  rcases List.mem_append.mp hmem with hmem | hmem
  · rcases List.mem_append.mp hmem with hmem | hmem
    · exact hn hmem
    · exact no_newline_tagsPart ht hmem
  · exact no_newline_datePart hd hmem

/-! ## Claim theorems -/

/-- C6: `Encode` applied to the record
`{name: "Buy milk", tags: ["home"], date: "2024-05-01", checklist: false}`
returns exactly the string `"- [ ] Buy milk #home (2024-05-01)\n"`. -/
theorem c6_encode_scenario :
    formatTaskLine ⟨"Buy milk".data, ["home".data], "2024-05-01".data, false, none, none⟩ =
      "- [ ] Buy milk #home (2024-05-01)\n".data := by decide

/-- C1 (code bug): contrary to the claim (and to the source's own
comments `Remove task only from Tasks section` / `Keep other sections`),
`removeFromProjectFile` deletes a matching task line that belongs to a
LATER section (`## Notes`), and `updateTaskInProjectFile` rewrites a
matching line that lies BEFORE the `## Tasks` heading.  Both cited
operations therefore modify lines outside the named section's bounds when
an identically-named task line exists there. -/
theorem c1_mutators_modify_outside_section :
    removeFromProjectFile "A".data
        ["## Tasks".data, "- [ ] A".data, "## Notes".data, "- [ ] A".data] =
      some ["## Tasks".data, "## Notes".data] ∧
    updateTaskInProjectFile ⟨"A".data, [], [], true, none, none⟩
        ["- [ ] A".data, "## Tasks".data, "- [ ] A".data] =
      some ["- [x] A".data, "## Tasks".data, "- [ ] A".data] := by decide

/-- C2 (code bug): editing the task `Buy milk (2024-05-01)` (project
unchanged and set, checklist toggled to `x`) first writes the updated
line via `updateInProjectFile`, but the view's callback then re-runs
`updateTaskInProjectFile` with the stale pre-edit task object and
rewrites the line with the PRE-edit encoding: the project text ends up
byte-identical to the pre-edit text and does NOT hold the freshly encoded
line for the updated task, even though the in-memory list does hold the
updated task. -/
theorem c2_edit_flow_reverts_project_line :
    submitTaskEdit ⟨"Buy milk".data, [], "2024-05-01".data, false, some "P".data, none⟩
        ⟨"Buy milk".data, [], "2024-05-01".data, true, "P".data, []⟩
        [⟨"Buy milk".data, [], "2024-05-01".data, false, some "P".data, none⟩]
        "## Tasks\n- [ ] Buy milk (2024-05-01)".data [] =
      ⟨false, [⟨"Buy milk".data, [], "2024-05-01".data, true, some "P".data, some []⟩],
        "## Tasks\n- [ ] Buy milk (2024-05-01)".data, []⟩ ∧
    updateInProjectFileText "Buy milk".data
        ⟨"Buy milk".data, [], "2024-05-01".data, true, some "P".data, some []⟩
        "## Tasks\n- [ ] Buy milk (2024-05-01)".data =
      "## Tasks\n- [x] Buy milk (2024-05-01)".data ∧
    ("## Tasks\n- [ ] Buy milk (2024-05-01)".data : List Char) ≠
      "## Tasks\n- [x] Buy milk (2024-05-01)".data := by decide

/-- C3 counterexample: the round-trip claim quantifies over all task
records whose NAME is clean, but it fails when the `date` field is not of
`YYYY-MM-DD` shape: for `{name: "A", tags: [], date: "hello",
checklist: false}` the encoded line decodes to a record whose date is
empty, not `"hello"`. -/
theorem c3_roundtrip_counterexample :
    parseProjectTasks
        ("## Tasks".data ++ '\n' ::
          formatTaskLine ⟨"A".data, [], "hello".data, false, none, none⟩) =
      [⟨"A (hello)".data, [], [], false, none, none⟩] ∧
    (⟨"A (hello)".data, [], [], false, none, none⟩ : TaskData).date ≠
      (⟨"A".data, [], "hello".data, false, none, none⟩ : TaskData).date := by decide

/-- C5 counterexample: `updateTaskInProjectFile` never looks for the
section heading, so on a document with no `## Tasks` heading at all it
still performs a write (and changes the text) as soon as some line
matches the task pattern. -/
theorem c5_update_writes_without_heading :
    findHeadingIdx (splitNl "- [ ] A".data) = none ∧
    updateTaskInProjectFile ⟨"A".data, [], [], true, none, none⟩
        (splitNl "- [ ] A".data) = some ["- [x] A".data] ∧
    updateTaskInProjectFileText ⟨"A".data, [], [], true, none, none⟩
        "- [ ] A".data = "- [x] A".data ∧
    ("- [x] A".data : List Char) ≠ "- [ ] A".data := by decide

/-- C7 counterexample: `updateInProjectFile` keyed by `matchName = "A"`
with a task renamed to `B`, on a section holding two lines matching `A`,
is not idempotent: the first call rewrites the first `A`-line to a
`B`-line, and the second call then rewrites the OTHER `A`-line, so the
text after two calls differs from the text after one. -/
theorem c7_update_not_idempotent :
    applyUpdateInProjectFile "A".data ⟨"B".data, [], [], false, none, none⟩
        (applyUpdateInProjectFile "A".data ⟨"B".data, [], [], false, none, none⟩
          ["## Tasks".data, "- [ ] A".data, "- [ ] A".data]) ≠
      applyUpdateInProjectFile "A".data ⟨"B".data, [], [], false, none, none⟩
        ["## Tasks".data, "- [ ] A".data, "- [ ] A".data] := by decide

/-- C4: whenever the document's line array contains the section heading
(first trimmed match at index `i`), Insert returns the array with the
encoded task line spliced in at index `i + 1` — immediately after the
heading line, as the first line of the section — leaving the lines before
the heading and the whole remainder of the document in place, whatever
the section already holds. -/
theorem c4_insert_first_after_heading (t : TaskData) (doc : List (List Char))
    (i : Nat) (h : findHeadingIdx doc = some i) :
    appendToProjectFile t doc =
      some (doc.take (i + 1) ++ formatTaskLine t :: doc.drop (i + 1)) ∧
    (doc.take (i + 1) ++ formatTaskLine t :: doc.drop (i + 1))[i + 1]? =
      some (formatTaskLine t) ∧
    (doc.take (i + 1) ++ formatTaskLine t :: doc.drop (i + 1)).take (i + 1) =
      doc.take (i + 1) ∧
    (doc.take (i + 1) ++ formatTaskLine t :: doc.drop (i + 1)).drop (i + 2) =
      doc.drop (i + 1) := by
  have hlen : (doc.take (i + 1)).length = i + 1 := by
    rw [List.length_take]
    have := findHeadingIdx_lt h
    omega
  refine ⟨by simp [appendToProjectFile, h], ?_, ?_, ?_⟩
  · rw [List.getElem?_append_right (by omega)]
    simp [hlen]
  · rw [List.take_append_eq_append_take, hlen]
    simp [List.take_take]
  · rw [List.drop_append_eq_append_drop, hlen]
    rw [List.drop_of_length_le (by omega)]
    simp

/-- C4 witness: inserting into the one-line document `["## Tasks"]`. -/
theorem c4_insert_first_after_heading_witness :
    findHeadingIdx ["## Tasks".data] = some 0 ∧
    (appendToProjectFile ⟨"A".data, [], [], false, none, none⟩ ["## Tasks".data] =
      some ((["## Tasks".data] : List (List Char)).take 1 ++
        formatTaskLine ⟨"A".data, [], [], false, none, none⟩ ::
          (["## Tasks".data] : List (List Char)).drop 1) ∧
     ((["## Tasks".data] : List (List Char)).take 1 ++
        formatTaskLine ⟨"A".data, [], [], false, none, none⟩ ::
          (["## Tasks".data] : List (List Char)).drop 1)[1]? =
       some (formatTaskLine ⟨"A".data, [], [], false, none, none⟩) ∧
     ((["## Tasks".data] : List (List Char)).take 1 ++
        formatTaskLine ⟨"A".data, [], [], false, none, none⟩ ::
          (["## Tasks".data] : List (List Char)).drop 1).take 1 =
       (["## Tasks".data] : List (List Char)).take 1 ∧
     ((["## Tasks".data] : List (List Char)).take 1 ++
        formatTaskLine ⟨"A".data, [], [], false, none, none⟩ ::
          (["## Tasks".data] : List (List Char)).drop 1).drop 2 =
       (["## Tasks".data] : List (List Char)).drop 1) :=
  ⟨by decide,
   c4_insert_first_after_heading ⟨"A".data, [], [], false, none, none⟩
     ["## Tasks".data] 0 (by decide)⟩

/-- C5 (amended): for the section-scoped operations
(`removeFromProjectFile` and `updateInProjectFile`), a missing `## Tasks`
heading or the absence of any line matching the task pattern means no
write happens and the document text stays byte-identical; for the
whole-document `updateTaskInProjectFile` of `main.ts` the absence of a
matching line likewise means no write — but that function never consults
the section heading, so heading absence alone does not prevent a write
(see its counterexample). -/
theorem c5_noop_amended (name : List Char) (t : TaskData) (content : List Char) :
    (findHeadingIdx (splitNl content) = none →
      removeFromProjectFile name (splitNl content) = none ∧
      updateInProjectFile name t (splitNl content) = none ∧
      removeFromProjectFileText name content = content ∧
      updateInProjectFileText name t content = content) ∧
    ((∀ l ∈ splitNl content, matchesTask name l = false) →
      removeFromProjectFile name (splitNl content) = none ∧
      updateInProjectFile name t (splitNl content) = none ∧
      removeFromProjectFileText name content = content ∧
      updateInProjectFileText name t content = content) ∧
    ((∀ l ∈ splitNl content, matchesTask t.name l = false) →
      updateTaskInProjectFile t (splitNl content) = none ∧
      updateTaskInProjectFileText t content = content) := by
  refine ⟨fun h => ?_, fun h => ?_, fun h => ?_⟩
  · have h1 : removeFromProjectFile name (splitNl content) = none := by
      simp [removeFromProjectFile, h]
    have h2 : updateInProjectFile name t (splitNl content) = none := by
      simp [updateInProjectFile, h]
    exact ⟨h1, h2, by simp [removeFromProjectFileText, h1],
      by simp [updateInProjectFileText, h2]⟩
  · have h1 : removeFromProjectFile name (splitNl content) = none := by
      unfold removeFromProjectFile
      cases hf : findHeadingIdx (splitNl content) with
      | none => rfl
      | some ti => simp [keepFilter_of_no_match h]
    have h2 : updateInProjectFile name t (splitNl content) = none := by
      cases hf : findHeadingIdx (splitNl content) with
      | none => exact updateInProjectFile_not_found hf
      | some ti =>
        rw [updateInProjectFile_found hf,
          updateSection_none (fun l hl => h l (List.drop_subset _ _ hl))]
        rfl
    exact ⟨h1, h2, by simp [removeFromProjectFileText, h1],
      by simp [updateInProjectFileText, h2]⟩
  · have h1 : updateTaskInProjectFile t (splitNl content) = none :=
      updateTaskInProjectFile_no_match h
    exact ⟨h1, by simp [updateTaskInProjectFileText, h1]⟩

/-- C5 witness: on the heading-free, match-free document `"hello"`,
all three hypotheses hold and none of the operations writes. -/
theorem c5_noop_amended_witness :
    (findHeadingIdx (splitNl "hello".data) = none →
      removeFromProjectFile "A".data (splitNl "hello".data) = none ∧
      updateInProjectFile "A".data ⟨"A".data, [], [], true, none, none⟩
        (splitNl "hello".data) = none ∧
      removeFromProjectFileText "A".data "hello".data = "hello".data ∧
      updateInProjectFileText "A".data ⟨"A".data, [], [], true, none, none⟩
        "hello".data = "hello".data) ∧
    ((∀ l ∈ splitNl "hello".data, matchesTask "A".data l = false) →
      removeFromProjectFile "A".data (splitNl "hello".data) = none ∧
      updateInProjectFile "A".data ⟨"A".data, [], [], true, none, none⟩
        (splitNl "hello".data) = none ∧
      removeFromProjectFileText "A".data "hello".data = "hello".data ∧
      updateInProjectFileText "A".data ⟨"A".data, [], [], true, none, none⟩
        "hello".data = "hello".data) ∧
    ((∀ l ∈ splitNl "hello".data,
        matchesTask (⟨"A".data, [], [], true, none, none⟩ : TaskData).name l = false) →
      updateTaskInProjectFile ⟨"A".data, [], [], true, none, none⟩
        (splitNl "hello".data) = none ∧
      updateTaskInProjectFileText ⟨"A".data, [], [], true, none, none⟩
        "hello".data = "hello".data) :=
  c5_noop_amended "A".data ⟨"A".data, [], [], true, none, none⟩ "hello".data

/-- C7 (amended): `updateTaskInProjectFile` — where the match name is the
task's own current name — is idempotent on every document;
`updateInProjectFile` — where the match name is the pre-edit name — is
idempotent provided its freshly written line still matches the match-name
pattern (in particular whenever the task's name is unchanged).  Without
that proviso idempotence fails (see the counterexample). -/
theorem c7_idempotent_amended (origName : List Char) (t : TaskData)
    (doc : List (List Char)) :
    applyUpdateTaskInProjectFile t (applyUpdateTaskInProjectFile t doc) =
      applyUpdateTaskInProjectFile t doc ∧
    (matchesTask origName (trimChars (formatTaskLine t)) = true →
      applyUpdateInProjectFile origName t (applyUpdateInProjectFile origName t doc) =
        applyUpdateInProjectFile origName t doc) := by
  constructor
  · cases h : updateTaskInProjectFile t doc with
    | none => simp [applyUpdateTaskInProjectFile, h]
    | some res =>
      simp [applyUpdateTaskInProjectFile, h, updateTaskInProjectFile_again h]
  · intro hm
    cases h : updateInProjectFile origName t doc with
    | none => simp [applyUpdateInProjectFile, h]
    | some res =>
      have hres : updateInProjectFile origName t res = some res := by
        cases hf : findHeadingIdx doc with
        | none => rw [updateInProjectFile_not_found hf] at h; simp at h
        | some i =>
          rw [updateInProjectFile_found hf] at h
          simp only [Option.map_eq_some'] at h
          obtain ⟨r, hr, hres⟩ := h
          have hlen : (doc.take (i + 1)).length = i + 1 := by
            rw [List.length_take]
            have := findHeadingIdx_lt hf
            omega
          subst hres
          rw [updateInProjectFile_found (findHeadingIdx_take_append hf r)]
          rw [List.drop_append_eq_append_drop, hlen,
            List.drop_of_length_le (by omega), Nat.sub_self, List.drop_zero,
            List.nil_append]
          rw [updateSection_again hm hr]
          rw [List.take_append_eq_append_take, hlen, Nat.sub_self,
            List.take_zero, List.append_nil, List.take_take]
          simp
      simp [applyUpdateInProjectFile, h, hres]

/-- C7 witness: updating `Buy milk` (name unchanged, checklist toggled)
twice leaves the same text as updating once. -/
theorem c7_idempotent_amended_witness :
    applyUpdateTaskInProjectFile ⟨"Buy milk".data, [], [], true, none, none⟩
      (applyUpdateTaskInProjectFile ⟨"Buy milk".data, [], [], true, none, none⟩
        ["## Tasks".data, "- [ ] Buy milk".data]) =
      applyUpdateTaskInProjectFile ⟨"Buy milk".data, [], [], true, none, none⟩
        ["## Tasks".data, "- [ ] Buy milk".data] ∧
    applyUpdateInProjectFile "Buy milk".data
      ⟨"Buy milk".data, [], [], true, none, none⟩
      (applyUpdateInProjectFile "Buy milk".data
        ⟨"Buy milk".data, [], [], true, none, none⟩
        ["## Tasks".data, "- [ ] Buy milk".data]) =
      applyUpdateInProjectFile "Buy milk".data
        ⟨"Buy milk".data, [], [], true, none, none⟩
        ["## Tasks".data, "- [ ] Buy milk".data] :=
  ⟨(c7_idempotent_amended "Buy milk".data ⟨"Buy milk".data, [], [], true, none, none⟩
      ["## Tasks".data, "- [ ] Buy milk".data]).1,
   (c7_idempotent_amended "Buy milk".data ⟨"Buy milk".data, [], [], true, none, none⟩
      ["## Tasks".data, "- [ ] Buy milk".data]).2 (by decide)⟩

/-- C8: submitting either modal with an empty task name aborts the
submit: the transient inline error is shown, the in-memory list is
untouched, and no document text changes. -/
theorem c8_empty_name_aborts (s : ModalState) (orig : TaskData)
    (tasks : List TaskData) (pt ot oldT newT : List Char)
    (h : s.taskName = []) :
    submitTaskCreate s tasks pt ot = ⟨true, tasks, pt, ot⟩ ∧
    submitTaskEdit orig s tasks oldT newT = ⟨true, tasks, oldT, newT⟩ := by
  constructor
  · unfold submitTaskCreate; rw [h]
  · unfold submitTaskEdit; rw [h]

/-- C8 witness: a concrete empty-name submit of both modals. -/
theorem c8_empty_name_aborts_witness :
    (⟨[], [], [], false, [], []⟩ : ModalState).taskName = [] ∧
    (submitTaskCreate ⟨[], [], [], false, [], []⟩ [] "p".data "o".data =
      ⟨true, [], "p".data, "o".data⟩ ∧
     submitTaskEdit ⟨"A".data, [], [], false, none, none⟩
        ⟨[], [], [], false, [], []⟩ [] "x".data "y".data =
      ⟨true, [], "x".data, "y".data⟩) :=
  ⟨rfl, c8_empty_name_aborts ⟨[], [], [], false, [], []⟩
    ⟨"A".data, [], [], false, none, none⟩ [] "p".data "o".data "x".data "y".data rfl⟩

/-- C9: deletion removes from the in-memory list exactly the records
whose `(name, date)` pair equals the deleted task's pair (so a single
delete removes every duplicate sharing both fields), and the edit flow
locates the record to replace by the same `(name, date)` pair: the slot
found holds a record with the original pair, it is overwritten with the
updated record, and no other slot changes; when no record carries the
pair, the list is unchanged. -/
theorem c9_name_date_identity (task : TaskData) (tasks : List TaskData) :
    (∀ t', t' ∈ handleTaskDeletion task tasks ↔
      (t' ∈ tasks ∧ ¬(t'.name = task.name ∧ t'.date = task.date))) ∧
    (∀ orig upd i, findIndexAux (fun t => sameKey t orig) tasks = some i →
      (editReplaceList orig upd tasks)[i]? = some upd ∧
      (∀ j, j ≠ i → (editReplaceList orig upd tasks)[j]? = tasks[j]?) ∧
      ∃ told, tasks[i]? = some told ∧ told.name = orig.name ∧
        told.date = orig.date) ∧
    (∀ orig upd, (∀ t ∈ tasks, ¬(t.name = orig.name ∧ t.date = orig.date)) →
      editReplaceList orig upd tasks = tasks) := by
  refine ⟨fun t' => ?_, fun orig upd i h => ?_, fun orig upd h => ?_⟩
  · simp [handleTaskDeletion, List.mem_filter, sameKey]
    tauto
  · obtain ⟨told, htold, hkey⟩ := findIndexAux_some h
    have hlt : i < tasks.length := (List.getElem?_eq_some.mp htold).1
    simp only [sameKey, Bool.and_eq_true, beq_iff_eq] at hkey
    refine ⟨?_, fun j hj => ?_, told, htold, hkey.1, hkey.2⟩
    · simp [editReplaceList, h, List.getElem?_set_self, hlt]
    · simp only [editReplaceList, h]
      exact List.getElem?_set_ne (fun hh => hj hh.symm)
  · have : findIndexAux (fun t => sameKey t orig) tasks = none := by
      refine findIndexAux_none (fun t ht => ?_)
      cases hsk : sameKey t orig with
      | false => rfl
      | true =>
        exfalso
        simp only [sameKey, Bool.and_eq_true, beq_iff_eq] at hsk
        exact h t ht ⟨hsk.1, hsk.2⟩
    simp [editReplaceList, this]

/-- C9 witness: deleting `A (2024-01-01)` from a list holding two
distinct records with that pair removes both; the edit slot lookup finds
index 0. -/
theorem c9_name_date_identity_witness :
    ((⟨"A".data, ["x".data], "2024-01-01".data, false, none, none⟩ : TaskData) ∈
        handleTaskDeletion ⟨"A".data, [], "2024-01-01".data, true, none, none⟩
          [⟨"A".data, ["x".data], "2024-01-01".data, false, none, none⟩,
           ⟨"A".data, [], "2024-01-01".data, true, none, none⟩] ↔
      ((⟨"A".data, ["x".data], "2024-01-01".data, false, none, none⟩ : TaskData) ∈
          [⟨"A".data, ["x".data], "2024-01-01".data, false, none, none⟩,
           ⟨"A".data, [], "2024-01-01".data, true, none, none⟩] ∧
        ¬((⟨"A".data, ["x".data], "2024-01-01".data, false, none, none⟩ : TaskData).name =
            (⟨"A".data, [], "2024-01-01".data, true, none, none⟩ : TaskData).name ∧
          (⟨"A".data, ["x".data], "2024-01-01".data, false, none, none⟩ : TaskData).date =
            (⟨"A".data, [], "2024-01-01".data, true, none, none⟩ : TaskData).date))) ∧
    ((editReplaceList ⟨"A".data, ["x".data], "2024-01-01".data, false, none, none⟩
        ⟨"B".data, [], [], false, none, none⟩
        [⟨"A".data, ["x".data], "2024-01-01".data, false, none, none⟩,
         ⟨"A".data, [], "2024-01-01".data, true, none, none⟩])[0]? =
      some ⟨"B".data, [], [], false, none, none⟩) :=
  ⟨(c9_name_date_identity ⟨"A".data, [], "2024-01-01".data, true, none, none⟩
      [⟨"A".data, ["x".data], "2024-01-01".data, false, none, none⟩,
       ⟨"A".data, [], "2024-01-01".data, true, none, none⟩]).1
     ⟨"A".data, ["x".data], "2024-01-01".data, false, none, none⟩,
   ((c9_name_date_identity ⟨"A".data, [], "2024-01-01".data, true, none, none⟩
      [⟨"A".data, ["x".data], "2024-01-01".data, false, none, none⟩,
       ⟨"A".data, [], "2024-01-01".data, true, none, none⟩]).2.1
     ⟨"A".data, ["x".data], "2024-01-01".data, false, none, none⟩
     ⟨"B".data, [], [], false, none, none⟩ 0 (by decide)).1⟩

/-- C10: the encoded line `formatTaskLine` always ends with a newline,
Insert splices that string into the line array as a single element before
joining with newline, and consequently the written document, when split
back into lines, holds the task line's body at index `i + 1` and an EMPTY
line immediately after it at index `i + 2`. -/
theorem c10_trailing_newline_blank_line (t : TaskData) (content : List Char)
    (i : Nat) (hn : '\n' ∉ t.name) (ht : ∀ tg ∈ t.tags, '\n' ∉ tg)
    (hd : '\n' ∉ t.date) (hfound : findHeadingIdx (splitNl content) = some i) :
    formatTaskLine t = taskLineBody t ++ ['\n'] ∧
    splitNl (appendToProjectFileText t content) =
      (splitNl content).take (i + 1) ++
        taskLineBody t :: [] :: (splitNl content).drop (i + 1) := by
  refine ⟨rfl, ?_⟩
  have happ : appendToProjectFile t (splitNl content) =
      some ((splitNl content).take (i + 1) ++
        formatTaskLine t :: (splitNl content).drop (i + 1)) := by
    simp [appendToProjectFile, hfound]
  unfold appendToProjectFileText
  rw [happ]
  show splitNl (joinNl ((splitNl content).take (i + 1) ++
    (taskLineBody t ++ ['\n']) :: (splitNl content).drop (i + 1))) = _
  rw [joinNl_mid_newline]
  refine splitNl_joinNl ?_ (by simp)
  intro x hx
  rcases List.mem_append.mp hx with hx | hx
  · exact splitNl_no_newline content x (List.take_subset _ _ hx)
  rcases List.mem_cons.mp hx with rfl | hx
  · exact no_newline_taskLineBody hn ht hd
  rcases List.mem_cons.mp hx with rfl | hx
  · simp
  · exact splitNl_no_newline content x (List.drop_subset _ _ hx)

/-- C10 witness: inserting task `A` into the text `"## Tasks"` yields the
text `"## Tasks\n- [ ] A\n"`, whose line array has the empty line right
after the inserted task line. -/
theorem c10_trailing_newline_blank_line_witness :
    ('\n' ∉ ("A".data : List Char)) ∧
    findHeadingIdx (splitNl "## Tasks".data) = some 0 ∧
    (formatTaskLine ⟨"A".data, [], [], false, none, none⟩ =
      taskLineBody ⟨"A".data, [], [], false, none, none⟩ ++ ['\n'] ∧
     splitNl (appendToProjectFileText ⟨"A".data, [], [], false, none, none⟩
        "## Tasks".data) =
      (splitNl "## Tasks".data).take 1 ++
        taskLineBody ⟨"A".data, [], [], false, none, none⟩ :: [] ::
          (splitNl "## Tasks".data).drop 1) :=
  ⟨by decide, by decide,
   c10_trailing_newline_blank_line ⟨"A".data, [], [], false, none, none⟩
     "## Tasks".data 0 (by decide) (by decide) (by decide) (by decide)⟩

/-! ## Lemmas about the tag scanner (`#[^\s]+` global matching) -/

theorem extractGo_token_ne_nil :
    ∀ (l : List Char) (acc : List Char), (extractGo l (some acc)).1 ≠ [] := by
  intro l
  induction l with
  | nil => intro acc; simp [extractGo]
  | cons c r ih =>
    intro acc
    by_cases hw : isWs c = true
    · simp [extractGo, hw]
    · rw [Bool.not_eq_true] at hw
      simp only [extractGo, hw, Bool.false_eq_true, if_false]
      exact ih (c :: acc)

theorem extractGo_no_hash :
    ∀ {l : List Char}, (∀ c ∈ l, c ≠ '#') → extractGo l none = ([], l) := by
  intro l
  induction l with
  | nil => intro _; rfl
  | cons c r ih =>
    intro h
    have hc : (c == '#') = false := by simpa using h c (by simp)
    simp [extractGo, hc, ih (fun u hu => h u (by simp [hu]))]

theorem extractGo_skip :
    ∀ {xs : List Char}, (extractGo xs none).1 = [] →
      ∀ {ys : List Char}, (ys = [] ∨ ∃ d ysr, ys = d :: ysr ∧ isWs d = true) →
      extractGo (xs ++ ys) none =
        ((extractGo ys none).1, xs ++ (extractGo ys none).2) := by
  intro xs
  induction xs with
  | nil => intro _ ys _; simp
  | cons c xs' ih =>
    intro h1 ys h2
    have hcond : (c == '#' && headNonWs xs') = false := by
      by_contra hc
      rw [Bool.not_eq_false] at hc
      have heq : extractGo (c :: xs') none = extractGo xs' (some [c]) := by
        simp [extractGo, hc]
      rw [heq] at h1
      exact extractGo_token_ne_nil xs' [c] h1
    have h1' : (extractGo xs' none).1 = [] := by
      have heq : extractGo (c :: xs') none =
          ((extractGo xs' none).1, c :: (extractGo xs' none).2) := by
        simp [extractGo, hcond]
      rw [heq] at h1
      exact h1
    have hcond2 : (c == '#' && headNonWs (xs' ++ ys)) = false := by
      cases hcx : xs' with
      | cons d xs'' => simpa [hcx, headNonWs] using hcond
      | nil =>
        rcases h2 with rfl | ⟨d, ysr, rfl, hws⟩
        · simp [headNonWs]
        · simp [headNonWs, hws]
    calc extractGo ((c :: xs') ++ ys) none
        = ((extractGo (xs' ++ ys) none).1,
            c :: (extractGo (xs' ++ ys) none).2) := by
          simp [extractGo, hcond2]
      _ = ((extractGo ys none).1, c :: (xs' ++ (extractGo ys none).2)) := by
          rw [ih h1' h2]
      _ = ((extractGo ys none).1, (c :: xs') ++ (extractGo ys none).2) := rfl

theorem extractGo_token_all :
    ∀ {tok : List Char}, (∀ c ∈ tok, isWs c = false) →
      ∀ acc, extractGo tok (some acc) = ([acc.reverse ++ tok], []) := by
  intro tok
  induction tok with
  | nil => intro _ acc; simp [extractGo]
  | cons c r ih =>
    intro h acc
    have hc := h c (by simp)
    rw [show extractGo (c :: r) (some acc) = extractGo r (some (c :: acc)) by
      simp [extractGo, hc]]
    rw [ih (fun u hu => h u (by simp [hu])) (c :: acc)]
    simp

theorem extractGo_token_stop :
    ∀ {tok : List Char}, (∀ c ∈ tok, isWs c = false) →
      ∀ {d : Char}, isWs d = true → ∀ (ys2 : List Char) (acc : List Char),
      extractGo (tok ++ d :: ys2) (some acc) =
        ((acc.reverse ++ tok) :: (extractGo ys2 none).1,
          d :: (extractGo ys2 none).2) := by
  intro tok
  induction tok with
  | nil => intro _ d hd ys2 acc; simp [extractGo, hd]
  | cons c r ih =>
    intro h d hd ys2 acc
    have hc := h c (by simp)
    rw [List.cons_append,
      show extractGo (c :: (r ++ d :: ys2)) (some acc) =
        extractGo (r ++ d :: ys2) (some (c :: acc)) by simp [extractGo, hc]]
    rw [ih (fun u hu => h u (by simp [hu])) hd ys2 (c :: acc)]
    simp

theorem extractGo_tags_chain :
    ∀ (tags : List (List Char)), tags ≠ [] →
      (∀ tg ∈ tags, tg ≠ [] ∧ ∀ c ∈ tg, isWs c = false) →
      ∀ (ys : List Char), (ys = [] ∨ ∃ ysr, ys = ' ' :: ysr) →
        extractGo ys none = ([], ys) →
        ∃ sp, (∀ c ∈ sp, c = ' ') ∧
          extractGo (joinSep [' '] (tags.map (fun tg => '#' :: tg)) ++ ys) none =
            (tags.map (fun tg => '#' :: tg), sp ++ ys) := by
  intro tags
  induction tags with
  | nil => intro h; exact absurd rfl h
  | cons tg tgs ih =>
    intro _ htags ys hys hyse
    obtain ⟨htg_ne, htg_ws⟩ := htags tg (by simp)
    have hcond : ∀ (z : List Char), headNonWs (tg ++ z) = true := by
      intro z
      cases htg : tg with
      | nil => exact absurd htg htg_ne
      | cons a tg' =>
        have ha := htg_ws a (by simp [htg])
        simp [headNonWs, ha]
    cases tgs with
    | nil =>
      refine ⟨[], by simp, ?_⟩
      show extractGo (('#' :: tg) ++ ys) none = ([('#' :: tg)], [] ++ ys)
      rw [List.cons_append,
        show extractGo ('#' :: (tg ++ ys)) none = extractGo (tg ++ ys) (some ['#']) by
          simp [extractGo, hcond ys]]
      rcases hys with rfl | ⟨ysr, rfl⟩
      · rw [List.append_nil, extractGo_token_all htg_ws ['#']]
        simp
      · rw [extractGo_token_stop htg_ws (by decide) ysr ['#']]
        have hy1 : (extractGo ysr none).1 = [] ∧
            ' ' :: (extractGo ysr none).2 = ' ' :: ysr := by
          have := hyse
          rw [show extractGo (' ' :: ysr) none =
              ((extractGo ysr none).1, ' ' :: (extractGo ysr none).2) by
            simp [extractGo]] at this
          exact ⟨congrArg Prod.fst this, congrArg Prod.snd this⟩
        rw [hy1.1, hy1.2]
        simp
    | cons tg2 tgs' =>
      obtain ⟨sp', hsp', hex⟩ :=
        ih (by simp) (fun u hu => htags u (by simp [hu])) ys hys hyse
      refine ⟨' ' :: sp', ?_, ?_⟩
      · intro c hc
        rcases List.mem_cons.mp hc with rfl | hc2
        · rfl
        · exact hsp' c hc2
      · show extractGo ((('#' :: tg) ++ [' '] ++
            joinSep [' '] ((tg2 :: tgs').map (fun u => '#' :: u))) ++ ys) none = _
        rw [show (('#' :: tg) ++ [' '] ++
            joinSep [' '] ((tg2 :: tgs').map (fun u => '#' :: u))) ++ ys =
          '#' :: (tg ++ ' ' ::
            (joinSep [' '] ((tg2 :: tgs').map (fun u => '#' :: u)) ++ ys)) by
          simp]
        rw [show extractGo ('#' :: (tg ++ ' ' ::
            (joinSep [' '] ((tg2 :: tgs').map (fun u => '#' :: u)) ++ ys))) none =
          extractGo (tg ++ ' ' ::
            (joinSep [' '] ((tg2 :: tgs').map (fun u => '#' :: u)) ++ ys))
            (some ['#']) by
          simp [extractGo, hcond]]
        rw [extractGo_token_stop htg_ws (by decide) _ ['#']]
        rw [hex]
        simp

/-! ## Lemmas about the date regex `\((\d{4}-\d{2}-\d{2})\)` -/

theorem isWs_cases {c : Char} (h : isWs c = true) :
    c = ' ' ∨ c = '\t' ∨ c = '\n' ∨ c = '\r' ∨
    c = Char.ofNat 11 ∨ c = Char.ofNat 12 := by
  simp [isWs] at h
  tauto

theorem digitDash_not_ws {c : Char} (h : c.isDigit = true ∨ c = '-') :
    isWs c = false := by
  rcases h with hd | rfl
  · by_contra hw
    rw [Bool.not_eq_false] at hw
    rcases isWs_cases hw with rfl | rfl | rfl | rfl | rfl | rfl <;>
      exact absurd hd (by decide)
  · decide

theorem digitDash_of_enum :
    ∀ (d : List Char) (k : Nat),
      (List.enumFrom k d).all
        (fun p => if p.1 == 4 || p.1 == 7 then p.2 == '-' else p.2.isDigit) = true →
      ∀ c ∈ d, c.isDigit = true ∨ c = '-' := by
  intro d
  induction d with
  | nil => intro k _ c hc; simp at hc
  | cons a d' ih =>
    intro k h c hc
    rw [List.enumFrom_cons] at h
    simp only [List.all_cons, Bool.and_eq_true] at h
    rcases List.mem_cons.mp hc with rfl | hc2
    · by_cases hk : (k == 4 || k == 7) = true
      · rw [if_pos hk] at h
        exact Or.inr (by simpa using h.1)
      · rw [if_neg (by simpa using hk)] at h
        exact Or.inl h.1
    · exact ih (k + 1) h.2 c hc2

theorem dateShape_length {d : List Char} (h : dateShape d = true) :
    d.length = 10 := by
  simp only [dateShape, Bool.and_eq_true, beq_iff_eq] at h
  exact h.1

theorem dateShape_mem {d : List Char} (h : dateShape d = true) :
    ∀ c ∈ d, c.isDigit = true ∨ c = '-' := by
  simp only [dateShape, Bool.and_eq_true] at h
  exact digitDash_of_enum d 0 h.2

theorem dateShape_no_hash {d : List Char} (h : dateShape d = true) :
    ∀ c ∈ d, c ≠ '#' := by
  intro c hc
  rcases dateShape_mem h c hc with hd | rfl
  · rintro rfl; exact absurd hd (by decide)
  · decide

theorem parenDateAt_exact {D : List Char} (w : List Char) (hD : dateShape D = true) :
    parenDateAt ('(' :: (D ++ ')' :: w)) = true := by
  have hlen := dateShape_length hD
  have htake : (D ++ ')' :: w).take 10 = D := List.take_left' hlen
  have hdrop : (D ++ ')' :: w).drop 10 = ')' :: w := List.drop_left' hlen
  simp [parenDateAt, htake, hdrop, hD]

theorem parenDateAt_strip {v : List Char} {w0 : Char} {w : List Char}
    (hw : isWs w0 = true ∨ (w0 = '(' ∧ v ≠ []))
    (h : parenDateAt (v ++ w0 :: w) = true) : parenDateAt v = true := by
  cases v with
  | nil =>
    simp only [List.nil_append, parenDateAt, Bool.and_eq_true, beq_iff_eq] at h
    obtain ⟨⟨hw0, _⟩, _⟩ := h
    rcases hw with hws | ⟨_, hne⟩
    · subst hw0; exact absurd hws (by decide)
    · exact absurd rfl hne
  | cons c vr =>
    simp only [List.cons_append, parenDateAt, Bool.and_eq_true, beq_iff_eq] at h
    obtain ⟨⟨hc, hshape⟩, hdrop⟩ := h
    have hw0_dd : ¬(w0.isDigit = true ∨ w0 = '-') := by
      rcases hw with hws | ⟨rfl, _⟩
      · intro hdd
        rw [digitDash_not_ws hdd] at hws
        exact Bool.false_ne_true hws
      · rintro (hd | hd)
        · exact absurd hd (by decide)
        · exact absurd hd (by decide)
    have hw0_rp : w0 ≠ ')' := by
      rcases hw with hws | ⟨rfl, _⟩
      · rintro rfl; exact absurd hws (by decide)
      · decide
    rcases Nat.lt_or_ge vr.length 10 with hlt | hge
    · exfalso
      have htake : (vr ++ w0 :: w).take 10 =
          vr ++ (w0 :: w).take (10 - vr.length) := by
        rw [List.take_append_eq_append_take,
          List.take_of_length_le (le_of_lt hlt)]
      have hw0mem : w0 ∈ (vr ++ w0 :: w).take 10 := by
        rw [htake, List.take_cons (by omega)]
        simp
      exact hw0_dd (dateShape_mem hshape w0 hw0mem)
    rcases Nat.eq_or_lt_of_le hge with heq | hgt
    · exfalso
      have hdr : (vr ++ w0 :: w).drop 10 = w0 :: w := by
        rw [heq, List.drop_left]
      rw [hdr] at hdrop
      simp at hdrop
      exact hw0_rp hdrop
    · simp only [parenDateAt, Bool.and_eq_true, beq_iff_eq]
      refine ⟨⟨hc, ?_⟩, ?_⟩
      · rwa [List.take_append_of_le_length (by omega)] at hshape
      · have hne : vr.drop 10 ≠ [] := by
          intro h0
          have hld := List.length_drop 10 vr
          rw [h0] at hld
          simp at hld
          omega
        have hdr : (vr ++ w0 :: w).drop 10 = vr.drop 10 ++ w0 :: w := by
          rw [List.drop_append_of_le_length (by omega)]
        rw [hdr, List.head?_append_of_ne_nil _ hne] at hdrop
        exact hdrop

theorem findDate_cons_pos {c : Char} {r : List Char}
    (h : parenDateAt (c :: r) = true) :
    findDate (c :: r) = some (r.take 10, r.drop 11) := by
  simp [findDate, h]

theorem findDate_cons_neg {c : Char} {r : List Char}
    (h : parenDateAt (c :: r) = false) :
    findDate (c :: r) = (findDate r).map (fun p => (p.1, c :: p.2)) := by
  simp [findDate, h]

theorem findDate_cons_none {c : Char} {r : List Char}
    (h : findDate (c :: r) = none) :
    parenDateAt (c :: r) = false ∧ findDate r = none := by
  by_cases hp : parenDateAt (c :: r) = true
  · rw [findDate_cons_pos hp] at h; simp at h
  · rw [Bool.not_eq_true] at hp
    rw [findDate_cons_neg hp] at h
    simp only [Option.map_eq_none'] at h
    exact ⟨hp, h⟩

theorem parenDateAt_append_right {v : List Char} (w : List Char)
    (h : parenDateAt v = true) : parenDateAt (v ++ w) = true := by
  cases v with
  | nil => simp [parenDateAt] at h
  | cons c vr =>
    simp only [parenDateAt, Bool.and_eq_true, beq_iff_eq] at h
    obtain ⟨⟨hc, hshape⟩, hdrop⟩ := h
    have hlen10 : 10 ≤ vr.length := by
      have := dateShape_length hshape
      rw [List.length_take] at this
      omega
    have hne : vr.drop 10 ≠ [] := by
      intro h0
      rw [h0] at hdrop
      simp at hdrop
    have hlen11 : 11 ≤ vr.length := by
      rcases Nat.eq_or_lt_of_le hlen10 with heq | hgt
      · exfalso
        apply hne
        rw [heq]
        exact List.drop_length vr
      · omega
    simp only [List.cons_append, parenDateAt, Bool.and_eq_true, beq_iff_eq]
    refine ⟨⟨hc, ?_⟩, ?_⟩
    · rwa [List.take_append_of_le_length (by omega)]
    · rw [List.drop_append_of_le_length (by omega),
        List.head?_append_of_ne_nil _ hne]
      exact hdrop

theorem findDate_append_strip :
    ∀ {x : List Char} (w : List Char), findDate (x ++ w) = none → findDate x = none := by
  intro x
  induction x with
  | nil => intro w _; rfl
  | cons c r ih =>
    intro w h
    rw [List.cons_append] at h
    obtain ⟨hp, hr⟩ := findDate_cons_none h
    have hp' : parenDateAt (c :: r) = false := by
      by_contra hc
      rw [Bool.not_eq_false] at hc
      have hca := parenDateAt_append_right w hc
      rw [List.cons_append] at hca
      rw [hca] at hp
      simp at hp
    rw [findDate_cons_neg hp', ih w hr]
    rfl

theorem findDate_all_ws :
    ∀ {sp : List Char}, (∀ c ∈ sp, isWs c = true) → findDate sp = none := by
  intro sp
  induction sp with
  | nil => intro _; rfl
  | cons s sp' ih =>
    intro h
    have hp : parenDateAt (s :: sp') = false := by
      by_contra hc
      rw [Bool.not_eq_false] at hc
      simp only [parenDateAt, Bool.and_eq_true, beq_iff_eq] at hc
      obtain ⟨⟨rfl, _⟩, _⟩ := hc
      exact absurd (h '(' (by simp)) (by decide)
    rw [findDate_cons_neg hp, ih (fun u hu => h u (by simp [hu]))]
    rfl

theorem findDate_append_ws :
    ∀ {nm : List Char}, findDate nm = none →
      ∀ {sp : List Char}, (∀ c ∈ sp, isWs c = true) →
      findDate (nm ++ sp) = none := by
  intro nm
  induction nm with
  | nil => intro _ sp hsp; exact findDate_all_ws hsp
  | cons c r ih =>
    intro hnm sp hsp
    obtain ⟨hp, hr⟩ := findDate_cons_none hnm
    cases sp with
    | nil => rw [List.append_nil]; exact hnm
    | cons s sp2 =>
      rw [List.cons_append]
      have hp2 : parenDateAt (c :: (r ++ s :: sp2)) = false := by
        by_contra hc
        rw [Bool.not_eq_false] at hc
        have hc2 : parenDateAt ((c :: r) ++ s :: sp2) = true := by
          simpa using hc
        have hstrip := parenDateAt_strip (Or.inl (hsp s (by simp))) hc2
        rw [hstrip] at hp
        simp at hp
      rw [findDate_cons_neg hp2, ih hr hsp]
      rfl

theorem findDate_locate {D : List Char} (hD : dateShape D = true) :
    ∀ {nm : List Char}, findDate nm = none →
      ∀ {W : List Char}, (∀ c ∈ W, isWs c = true) →
      findDate (nm ++ W ++ '(' :: (D ++ [')'])) = some (D, nm ++ W) := by
  have hbase : ∀ {W : List Char}, (∀ c ∈ W, isWs c = true) →
      findDate (W ++ '(' :: (D ++ [')'])) = some (D, W) := by
    intro W
    induction W with
    | nil =>
      intro _
      rw [List.nil_append]
      have hpd : parenDateAt ('(' :: (D ++ [')'])) = true := by
        have := parenDateAt_exact [] hD
        simpa using this
      rw [findDate_cons_pos hpd]
      have hlen := dateShape_length hD
      have ht : (D ++ [')']).take 10 = D := List.take_left' hlen
      have hd : (D ++ [')']).drop 11 = [] :=
        List.drop_of_length_le (by simp [hlen])
      rw [ht, hd]
    | cons w0 W' ih =>
      intro hW
      have hp : parenDateAt (w0 :: (W' ++ '(' :: (D ++ [')']))) = false := by
        by_contra hc
        rw [Bool.not_eq_false] at hc
        simp only [parenDateAt, Bool.and_eq_true, beq_iff_eq] at hc
        obtain ⟨⟨rfl, _⟩, _⟩ := hc
        exact absurd (hW '(' (by simp)) (by decide)
      rw [List.cons_append, findDate_cons_neg hp,
        ih (fun u hu => hW u (by simp [hu]))]
      rfl
  intro nm
  induction nm with
  | nil => intro _ W hW; rw [List.nil_append]; exact hbase hW
  | cons c nm' ih =>
    intro hnm W hW
    obtain ⟨hp, hr⟩ := findDate_cons_none hnm
    have hp2 : parenDateAt (c :: (nm' ++ W ++ '(' :: (D ++ [')']))) = false := by
      by_contra hc
      rw [Bool.not_eq_false] at hc
      have hstrip : parenDateAt (c :: nm') = true := by
        cases hWc : W with
        | nil =>
          have hc2 : parenDateAt ((c :: nm') ++ '(' :: (D ++ [')'])) = true := by
            rw [hWc] at hc
            simpa using hc
          exact parenDateAt_strip (Or.inr ⟨rfl, by simp⟩) hc2
        | cons w0 W' =>
          have hc2 : parenDateAt ((c :: nm') ++
              w0 :: (W' ++ '(' :: (D ++ [')']))) = true := by
            rw [hWc] at hc
            simpa using hc
          exact parenDateAt_strip (Or.inl (hW w0 (by simp [hWc]))) hc2
      rw [hstrip] at hp
      simp at hp
    rw [show (c :: nm') ++ W ++ '(' :: (D ++ [')']) =
      c :: (nm' ++ W ++ '(' :: (D ++ [')'])) by simp]
    rw [findDate_cons_neg hp2, ih hr hW]
    rfl

theorem findDate_dropWhile {l : List Char} (h : findDate l = none) :
    findDate (l.dropWhile isWs) = none := by
  induction l with
  | nil => exact h
  | cons c r ih =>
    obtain ⟨_, hr⟩ := findDate_cons_none h
    rw [List.dropWhile_cons]
    by_cases hw : isWs c = true
    · rw [if_pos hw]; exact ih hr
    · rw [Bool.not_eq_true] at hw
      rw [if_neg (by simp [hw])]
      exact h

/-! ## Lemmas about `trim` -/

theorem trimChars_decomp (l : List Char) :
    trimChars l = rtrimWs (l.dropWhile isWs) := rfl

theorem dropWhile_append_of_ne_nil {p : Char → Bool} :
    ∀ {a : List Char}, List.dropWhile p a ≠ [] →
      ∀ (b : List Char), List.dropWhile p (a ++ b) = List.dropWhile p a ++ b := by
  intro a
  induction a with
  | nil => intro h _; exact absurd rfl h
  | cons c a' ih =>
    intro h b
    by_cases hc : p c = true
    · rw [List.dropWhile_cons, if_pos hc] at h
      rw [List.cons_append, List.dropWhile_cons, if_pos hc,
        List.dropWhile_cons, if_pos hc]
      exact ih h b
    · rw [Bool.not_eq_true] at hc
      rw [List.cons_append, List.dropWhile_cons, if_neg (by simp [hc]),
        List.dropWhile_cons, if_neg (by simp [hc])]
      rfl

theorem dropWhile_append_all {p : Char → Bool} :
    ∀ {a : List Char}, (∀ c ∈ a, p c = true) →
      ∀ (b : List Char), List.dropWhile p (a ++ b) = List.dropWhile p b := by
  intro a
  induction a with
  | nil => intro _ b; rfl
  | cons c a' ih =>
    intro h b
    rw [List.cons_append, List.dropWhile_cons, if_pos (h c (by simp))]
    exact ih (fun u hu => h u (by simp [hu])) b

theorem dropWhile_all {p : Char → Bool} {a : List Char}
    (h : ∀ c ∈ a, p c = true) : List.dropWhile p a = [] := by
  have := dropWhile_append_all h []
  rwa [List.append_nil] at this

theorem rtrimWs_append_ws {w : List Char} (hw : ∀ c ∈ w, isWs c = true)
    (y : List Char) : rtrimWs (y ++ w) = rtrimWs y := by
  unfold rtrimWs
  rw [List.reverse_append, dropWhile_append_all (fun c hc => hw c (by simpa using hc))]

theorem rtrimWs_concat_not_ws {c : Char} (hc : isWs c = false)
    (y : List Char) : rtrimWs (y ++ [c]) = y ++ [c] := by
  unfold rtrimWs
  rw [List.reverse_append]
  simp only [List.reverse_cons, List.reverse_nil, List.nil_append, List.cons_append]
  rw [List.dropWhile_cons, if_neg (by simp [hc])]
  simp

theorem rtrimWs_decomp (l : List Char) : ∃ w, l = rtrimWs l ++ w := by
  refine ⟨(l.reverse.takeWhile isWs).reverse, ?_⟩
  unfold rtrimWs
  rw [← List.reverse_append, List.takeWhile_append_dropWhile, List.reverse_reverse]

theorem findDate_trim_ws_none {nm W : List Char} (hnm : findDate nm = none)
    (hW : ∀ c ∈ W, isWs c = true) : findDate (trimChars (nm ++ W)) = none := by
  rw [trimChars_decomp]
  by_cases h0 : List.dropWhile isWs nm = []
  · have hall := List.dropWhile_eq_nil_iff.mp h0
    rw [dropWhile_append_all hall, dropWhile_all hW]
    rfl
  · rw [dropWhile_append_of_ne_nil h0, rtrimWs_append_ws hW]
    have h1 : findDate (List.dropWhile isWs nm) = none := findDate_dropWhile hnm
    obtain ⟨w, hw⟩ := rtrimWs_decomp (List.dropWhile isWs nm)
    refine findDate_append_strip w ?_
    rw [← hw]
    exact h1

theorem findDate_trim_ws_date {nm W D : List Char} (hnm : findDate nm = none)
    (hW : ∀ c ∈ W, isWs c = true) (hD : dateShape D = true) :
    ∃ r, findDate (trimChars (nm ++ W ++ '(' :: (D ++ [')']))) = some (D, r) := by
  rw [trimChars_decomp]
  by_cases h0 : List.dropWhile isWs nm = []
  · have hall := List.dropWhile_eq_nil_iff.mp h0
    rw [show nm ++ W ++ '(' :: (D ++ [')']) =
        nm ++ (W ++ '(' :: (D ++ [')'])) by simp,
      dropWhile_append_all hall, dropWhile_append_all hW,
      List.dropWhile_cons, if_neg (by decide)]
    rw [show ('(' :: (D ++ [')'])) = ('(' :: D) ++ [')'] by simp,
      rtrimWs_concat_not_ws (by decide)]
    rw [show ('(' :: D) ++ [')'] = [] ++ [] ++ '(' :: (D ++ [')']) by simp]
    exact ⟨[] ++ [], @findDate_locate D hD [] rfl [] (by simp)⟩
  · rw [show nm ++ W ++ '(' :: (D ++ [')']) =
        nm ++ (W ++ '(' :: (D ++ [')'])) by simp,
      dropWhile_append_of_ne_nil h0]
    rw [show List.dropWhile isWs nm ++ (W ++ '(' :: (D ++ [')'])) =
        (List.dropWhile isWs nm ++ W ++ '(' :: D) ++ [')'] by simp,
      rtrimWs_concat_not_ws (by decide),
      show (List.dropWhile isWs nm ++ W ++ '(' :: D) ++ [')'] =
        List.dropWhile isWs nm ++ W ++ '(' :: (D ++ [')']) by simp]
    exact ⟨List.dropWhile isWs nm ++ W,
      findDate_locate hD (findDate_dropWhile hnm) hW⟩

theorem extract_datePart {date : List Char}
    (hdate : date = [] ∨ dateShape date = true) :
    extractGo (datePart date) none = ([], datePart date) := by
  cases date with
  | nil => rfl
  | cons a ds =>
    rcases hdate with h | h
    · exact absurd h (by simp)
    · refine extractGo_no_hash ?_
      intro c hc
      rw [show datePart (a :: ds) = ' ' :: '(' :: ((a :: ds) ++ [')']) from rfl] at hc
      rcases List.mem_cons.mp hc with rfl | hc
      · decide
      rcases List.mem_cons.mp hc with rfl | hc
      · decide
      rcases List.mem_append.mp hc with hc | hc
      · exact dateShape_no_hash h c hc
      · rw [List.mem_singleton.mp hc]; decide

theorem extract_encoded (t : TaskData)
    (hn_tag : (extract t.name).1 = [])
    (htags : ∀ tg ∈ t.tags, tg ≠ [] ∧ ∀ c ∈ tg, isWs c = false)
    (hdate : t.date = [] ∨ dateShape t.date = true) :
    ∃ sp, (∀ c ∈ sp, isWs c = true) ∧
      extract (t.name ++ tagsPart t.tags ++ datePart t.date) =
        (t.tags.map (fun tg => '#' :: tg),
          t.name ++ (sp ++ datePart t.date)) ∧
      (t.tags = [] → sp = []) := by
  have hysd : datePart t.date = [] ∨
      ∃ d ysr, datePart t.date = d :: ysr ∧ isWs d = true := by
    cases t.date with
    | nil => exact Or.inl rfl
    | cons a ds => exact Or.inr ⟨' ', _, rfl, by decide⟩
  have hdp := extract_datePart hdate
  cases ht : t.tags with
  | nil =>
    refine ⟨[], by simp, ?_, fun _ => rfl⟩
    rw [show tagsPart [] = [] from rfl, List.append_nil]
    show extractGo (t.name ++ datePart t.date) none = _
    rw [extractGo_skip hn_tag hysd, hdp]
    simp
  | cons tg tgs =>
    have htags2 : ∀ u ∈ tg :: tgs, u ≠ [] ∧ ∀ c ∈ u, isWs c = false :=
      fun u hu => htags u (by rw [ht]; exact hu)
    have hysd2 : datePart t.date = [] ∨ ∃ ysr, datePart t.date = ' ' :: ysr := by
      cases t.date with
      | nil => exact Or.inl rfl
      | cons a ds => exact Or.inr ⟨_, rfl⟩
    obtain ⟨sp2, hsp2, hchain⟩ :=
      extractGo_tags_chain (tg :: tgs) (by simp) htags2 (datePart t.date) hysd2 hdp
    refine ⟨' ' :: sp2, ?_, ?_, ?_⟩
    · intro c hc
      rcases List.mem_cons.mp hc with rfl | hc
      · decide
      · rw [hsp2 c hc]; decide
    · have hys_eval : extractGo
          (' ' :: (joinSep [' '] ((tg :: tgs).map (fun u => '#' :: u)) ++
            datePart t.date)) none =
          ((tg :: tgs).map (fun u => '#' :: u),
            ' ' :: (sp2 ++ datePart t.date)) := by
        rw [show extractGo (' ' :: (joinSep [' ']
            ((tg :: tgs).map (fun u => '#' :: u)) ++ datePart t.date)) none =
          ((extractGo (joinSep [' '] ((tg :: tgs).map (fun u => '#' :: u)) ++
              datePart t.date) none).1,
            ' ' :: (extractGo (joinSep [' ']
              ((tg :: tgs).map (fun u => '#' :: u)) ++ datePart t.date) none).2) by
          simp [extractGo, headNonWs]]
        rw [hchain]
      rw [show t.name ++ tagsPart (tg :: tgs) ++ datePart t.date =
        t.name ++ (' ' :: (joinSep [' '] ((tg :: tgs).map (fun u => '#' :: u)) ++
          datePart t.date)) by simp [tagsPart]]
      show extractGo _ none = _
      rw [extractGo_skip hn_tag (Or.inr ⟨' ', _, rfl, by decide⟩), hys_eval]
      simp
    · intro h; exact absurd h (by simp)

theorem map_drop_hash : ∀ (l : List (List Char)),
    List.map (fun m => List.drop 1 m) (List.map (fun u => '#' :: u) l) = l := by
  intro l
  induction l with
  | nil => rfl
  | cons x xs ih =>
    simp only [List.map_cons, ih]
    rfl

/-- Decoding the body of an encoded line recovers the checklist flag, the
tag list and the date exactly, for a task whose name holds no tag token,
no parenthesized date and no newline, whose tags are nonempty and
whitespace-free, whose date is empty or well-shaped, and which is not
entirely empty. -/
theorem decodeLine_encoded (t : TaskData)
    (hn_nl : '\n' ∉ t.name)
    (hn_cr : '\r' ∉ t.name)
    (hn_tag : (extract t.name).1 = [])
    (hn_date : findDate t.name = none)
    (htags : ∀ tg ∈ t.tags, tg ≠ [] ∧ ∀ c ∈ tg, isWs c = false)
    (hdate : t.date = [] ∨ dateShape t.date = true)
    (hne : ¬(t.name = [] ∧ t.tags = [] ∧ t.date = [])) :
    ∃ nm, decodeLine (taskLineBody t) =
      some ⟨nm, t.tags, t.date, t.checklist, none, none⟩ := by
  have htag_nl : ∀ tg ∈ t.tags, '\n' ∉ tg := by
    intro tg htg hmem
    exact absurd ((htags tg htg).2 '\n' hmem) (by decide)
  have hdate_nl : '\n' ∉ t.date := by
    rcases hdate with h | h
    · rw [h]; simp
    · intro hmem
      rcases dateShape_mem h '\n' hmem with hd | hd
      · exact absurd hd (by decide)
      · exact absurd hd (by decide)
  have hrest_nl : '\n' ∉ t.name ++ tagsPart t.tags ++ datePart t.date := by
    intro hmem
    rcases List.mem_append.mp hmem with hmem | hmem
    · rcases List.mem_append.mp hmem with hmem | hmem
      · exact hn_nl hmem
      · exact no_newline_tagsPart htag_nl hmem
    · exact no_newline_datePart hdate_nl hmem
  have hrest_ne : t.name ++ tagsPart t.tags ++ datePart t.date ≠ [] := by
    intro h0
    simp only [List.append_eq_nil] at h0
    obtain ⟨⟨h1, h2⟩, h3⟩ := h0
    refine hne ⟨h1, ?_, ?_⟩
    · cases htg : t.tags with
      | nil => rfl
      | cons a as => rw [htg] at h2; simp [tagsPart] at h2
    · cases hdt : t.date with
      | nil => rfl
      | cons a as => rw [hdt] at h3; simp [datePart] at h3
  have hc1 : (checkboxChar t.checklist == ' ' ||
      checkboxChar t.checklist == 'x') = true := by
    cases t.checklist <;> decide
  have hc2 : (t.name ++ tagsPart t.tags ++ datePart t.date).isEmpty = false := by
    cases hr : t.name ++ tagsPart t.tags ++ datePart t.date with
    | nil => exact absurd hr hrest_ne
    | cons a as => rfl
  have hc3 : (t.name ++ tagsPart t.tags ++ datePart t.date).contains '\n' = false := by
    simpa using hrest_nl
  have htag_cr : ∀ tg ∈ t.tags, '\r' ∉ tg := by
    intro tg htg hmem
    exact absurd ((htags tg htg).2 '\r' hmem) (by decide)
  have hdate_cr : '\r' ∉ t.date := by
    rcases hdate with h | h
    · rw [h]; simp
    · intro hmem
      rcases dateShape_mem h '\r' hmem with hd | hd
      · exact absurd hd (by decide)
      · exact absurd hd (by decide)
  have hrest_cr : '\r' ∉ t.name ++ tagsPart t.tags ++ datePart t.date := by
    intro hmem
    rcases List.mem_append.mp hmem with hmem | hmem
    · rcases List.mem_append.mp hmem with hmem | hmem
      · exact hn_cr hmem
      · exact no_cr_tagsPart htag_cr hmem
    · exact no_cr_datePart hdate_cr hmem
  have hc3cr : (t.name ++ tagsPart t.tags ++ datePart t.date).contains '\r' = false := by
    simpa using hrest_cr
  have hcx : (checkboxChar t.checklist == 'x') = t.checklist := by
    cases t.checklist <;> decide
  obtain ⟨sp, hspws, hex, hsp_nil⟩ := extract_encoded t hn_tag htags hdate
  rw [show taskLineBody t = '-' :: ' ' :: '[' :: checkboxChar t.checklist ::
    ']' :: ' ' :: (t.name ++ tagsPart t.tags ++ datePart t.date) from rfl]
  simp only [decodeLine, hc1, hc2, hc3, hc3cr, Bool.not_false, Bool.and_self,
    if_true, hex]
  cases htg : t.tags with
  | nil =>
    have hspn := hsp_nil htg
    subst hspn
    simp only [List.map_nil, List.nil_append,
      show tagsPart ([] : List (List Char)) = [] from rfl, List.append_nil]
    cases hdt : t.date with
    | nil =>
      simp only [show datePart ([] : List Char) = [] from rfl, List.append_nil,
        hn_date, hcx]
      exact ⟨t.name, rfl⟩
    | cons a ds =>
      have hD : dateShape (a :: ds) = true := by
        rcases hdate with h | h
        · rw [hdt] at h; exact absurd h (by simp)
        · rw [hdt] at h; exact h
      rw [show t.name ++ datePart (a :: ds) =
        t.name ++ [' '] ++ '(' :: ((a :: ds) ++ [')']) by simp [datePart]]
      rw [findDate_locate hD hn_date (by decide)]
      simp only [hcx]
      exact ⟨trimChars (t.name ++ [' ']), rfl⟩
  | cons tg tgs =>
    simp only [List.map_cons]
    cases hdt : t.date with
    | nil =>
      rw [show t.name ++ (sp ++ datePart ([] : List Char)) = t.name ++ sp by
        simp [datePart]]
      rw [findDate_trim_ws_none hn_date hspws]
      simp only [hcx]
      refine ⟨trimChars (t.name ++ sp), ?_⟩
      congr 1
      rw [map_drop_hash tgs]
      rfl
    | cons a ds =>
      have hD : dateShape (a :: ds) = true := by
        rcases hdate with h | h
        · rw [hdt] at h; exact absurd h (by simp)
        · rw [hdt] at h; exact h
      have hWws : ∀ c ∈ sp ++ [' '], isWs c = true := by
        intro c hc
        rcases List.mem_append.mp hc with hc | hc
        · exact hspws c hc
        · rw [List.mem_singleton.mp hc]; decide
      rw [show t.name ++ (sp ++ datePart (a :: ds)) =
        t.name ++ (sp ++ [' ']) ++ '(' :: ((a :: ds) ++ [')']) by
        simp [datePart]]
      obtain ⟨r, hr⟩ := findDate_trim_ws_date hn_date hWws hD
      rw [hr]
      simp only [hcx]
      refine ⟨trimChars r, ?_⟩
      congr 1
      rw [map_drop_hash tgs]
      rfl


/-- C3 (amended): `Decode(Encode(t))` — parsing the project document
produced by inserting the encoded line under `## Tasks` — yields exactly
one task record, and that record carries `t`'s `checklist`, `date` and
`tags` (the identical tag sequence, hence also the same set), for every
task `t` whose name contains no `#`-prefixed token (the tag regex finds
no match in it), no parenthesized `YYYY-MM-DD` substring (the date regex
finds no match in it) and no line terminator (neither `\n` nor `\r`,
which the line regex's `.` refuses), PROVIDED additionally that each tag
is nonempty and whitespace-free, the date is empty or exactly of
`\d{4}-\d{2}-\d{2}` shape, and not all of name, tags and date are
empty.  The extra provisos are forced: without them the round-trip fails
(see the counterexample). -/
theorem c3_roundtrip_amended (t : TaskData)
    (hn_nl : '\n' ∉ t.name)
    (hn_cr : '\r' ∉ t.name)
    (hn_tag : (extract t.name).1 = [])
    (hn_date : findDate t.name = none)
    (htags : ∀ tg ∈ t.tags, tg ≠ [] ∧ ∀ c ∈ tg, isWs c = false)
    (hdate : t.date = [] ∨ dateShape t.date = true)
    (hne : ¬(t.name = [] ∧ t.tags = [] ∧ t.date = [])) :
    (parseProjectTasks (tasksHeading ++ '\n' :: formatTaskLine t)).length = 1 ∧
    ∀ u ∈ parseProjectTasks (tasksHeading ++ '\n' :: formatTaskLine t),
      u.checklist = t.checklist ∧ u.date = t.date ∧ u.tags = t.tags := by
  obtain ⟨nm, hdec⟩ :=
    decodeLine_encoded t hn_nl hn_cr hn_tag hn_date htags hdate hne
  have htag_nl : ∀ tg ∈ t.tags, '\n' ∉ tg := by
    intro tg htg hmem
    exact absurd ((htags tg htg).2 '\n' hmem) (by decide)
  have hdate_nl : '\n' ∉ t.date := by
    rcases hdate with h | h
    · rw [h]; simp
    · intro hmem
      rcases dateShape_mem h '\n' hmem with hd | hd
      · exact absurd hd (by decide)
      · exact absurd hd (by decide)
  have hbody_nl : '\n' ∉ taskLineBody t :=
    no_newline_taskLineBody hn_nl htag_nl hdate_nl
  have hsplit : splitNl (tasksHeading ++ '\n' :: formatTaskLine t) =
      [tasksHeading, taskLineBody t, []] := by
    rw [splitNl_append_newline (by decide)]
    rw [show formatTaskLine t = taskLineBody t ++ '\n' :: [] from rfl]
    rw [splitNl_append_newline hbody_nl]
    rfl
  have h1 : (trimChars tasksHeading == tasksHeading) = true := by decide
  have hth : tasksHeading =
      '#' :: '#' :: ' ' :: 'T' :: 'a' :: 's' :: 'k' :: 's' :: [] := by decide
  obtain ⟨m, hm⟩ : ∃ m, trimChars (taskLineBody t) = '-' :: m := by
    rw [show taskLineBody t = '-' :: (' ' :: '[' :: checkboxChar t.checklist ::
      ']' :: ' ' :: (t.name ++ tagsPart t.tags ++ datePart t.date)) from rfl]
    rw [trimChars_cons_of_not_ws (by decide)]
    exact ⟨_, rfl⟩
  have h2 : (trimChars (taskLineBody t) == tasksHeading) = false := by
    rw [beq_eq_false_iff_ne, hm, hth]
    intro hcontra
    have := List.head_eq_of_cons_eq hcontra
    exact absurd this (by decide)
  have h3 : startsHash (taskLineBody t) = false := rfl
  have h4 : (trimChars ([] : List Char) == tasksHeading) = false := by decide
  have h5 : startsHash ([] : List Char) = false := rfl
  have h6 : decodeLine ([] : List Char) = none := rfl
  have hparse : parseProjectTasks (tasksHeading ++ '\n' :: formatTaskLine t) =
      [⟨nm, t.tags, t.date, t.checklist, none, none⟩] := by
    unfold parseProjectTasks
    rw [hsplit]
    simp only [parseLines, h1, h2, h3, h4, h5, h6, hdec, if_true, if_false,
      Bool.false_eq_true]
  rw [hparse]
  refine ⟨rfl, ?_⟩
  intro u hu
  rw [List.mem_singleton.mp hu]
  exact ⟨rfl, rfl, rfl⟩

/-- C3 witness: the round-trip at the concrete task
`{name: "Buy milk", tags: ["home"], date: "2024-05-01",
checklist: false}`. -/
theorem c3_roundtrip_amended_witness :
    ('\n' ∉ ("Buy milk".data : List Char)) ∧
    ('\r' ∉ ("Buy milk".data : List Char)) ∧
    (extract "Buy milk".data).1 = [] ∧
    findDate "Buy milk".data = none ∧
    (∀ tg ∈ [("home".data : List Char)], tg ≠ [] ∧ ∀ c ∈ tg, isWs c = false) ∧
    (("2024-05-01".data : List Char) = [] ∨ dateShape "2024-05-01".data = true) ∧
    ((parseProjectTasks (tasksHeading ++ '\n' :: formatTaskLine
        ⟨"Buy milk".data, ["home".data], "2024-05-01".data, false, none, none⟩)).length = 1 ∧
      ∀ u ∈ parseProjectTasks (tasksHeading ++ '\n' :: formatTaskLine
          ⟨"Buy milk".data, ["home".data], "2024-05-01".data, false, none, none⟩),
        u.checklist = (⟨"Buy milk".data, ["home".data], "2024-05-01".data,
            false, none, none⟩ : TaskData).checklist ∧
        u.date = (⟨"Buy milk".data, ["home".data], "2024-05-01".data,
            false, none, none⟩ : TaskData).date ∧
        u.tags = (⟨"Buy milk".data, ["home".data], "2024-05-01".data,
            false, none, none⟩ : TaskData).tags) :=
  ⟨by decide, by decide, by decide, by decide, by decide, by decide,
   c3_roundtrip_amended
     ⟨"Buy milk".data, ["home".data], "2024-05-01".data, false, none, none⟩
     (by decide) (by decide) (by decide) (by decide) (by decide) (by decide)
     (by decide)⟩
